import Mathlib

set_option maxHeartbeats 1000000

/- Shallow embedding of the PromiseWorker request/response protocol of
   src/index.js (create-worker-promise).

   JS values are modelled by the inductive type Val.  The mutable instance
   fields of a PromiseWorker object (killed, _idx, queue, cmdCache, ready,
   worker) become the record PW, threaded through explicit state-passing
   versions of the methods.  Promise settlements, channel writes and console
   diagnostics are recorded in an event trace (the Ev lists returned next to
   the state).

   PW additionally carries ghost instrumentation that corresponds to no JS
   field: pidc names the promises created by each call (a fresh identifier
   per promise, so that a settlement event can say which promise settled),
   clock supplies the `+new Date()` timestamps, and sends/sendPlan/errPlan
   resolve, per worker.postMessage attempt, the environment nondeterminism of
   whether the write throws and with which error value.  The `queue` object
   is modelled as an insertion-ordered key/value list (prototype-chain
   lookups of JS objects are out of scope). -/

inductive Val where
  | undef
  | vnull
  | num (n : Int)
  | str (s : String)
  | obj (fields : List (String × Val))

/-- JS truthiness of the modelled values. -/
def truthy : Val → Bool
  | .undef => false
  | .vnull => false
  | .num n => n != 0
  | .str s => s != ""
  | .obj _ => true

/-- JS ToString, as used when a value is coerced to an object property key. -/
def jsToString : Val → String
  | .undef => "undefined"
  | .vnull => "null"
  | .num n => toString n
  | .str s => s
  | .obj _ => "[object Object]"

/-- JS ToNumber restricted to the modelled value forms; none stands for NaN. -/
def toNumber : Val → Option Int
  | .undef => none
  | .vnull => some 0
  | .num n => some n
  | .str s => if s.trim = "" then some 0 else s.trim.toInt?
  | .obj _ => none

/-- The test `+ok === 1` from the reply dispatch in init. -/
def okIsOne (v : Val) : Bool :=
  match toNumber v with
  | some n => n == 1
  | none => false

/-- Property read `v[k]` on an object value (undefined otherwise/absent). -/
def getField : Val → String → Val
  | .obj fs, k =>
    match fs.find? (fun e => e.1 = k) with
    | some e => e.2
    | none => Val.undef
  | _, _ => Val.undef

/-- The JS expression `a || b`. -/
def jsOr (a b : Val) : Val := if truthy a then a else b

/-- The test `res === 'ready by PromiseWorker.after'` (strict equality with a
string literal). -/
def isReadySentinel : Val → Bool
  | .str s => s = "ready by PromiseWorker.after"
  | _ => false

/-- Digit characters used by JS Number.prototype.toString(36): 0-9 then a-z. -/
def digitChar36 (d : Nat) : Char :=
  if d < 10 then Char.ofNat (48 + d) else Char.ofNat (87 + d)

/-- Fuelled base-36 digit accumulator; fuel at least the value itself is
enough, since the value strictly shrinks when divided by 36. -/
def toBase36Aux : Nat → Nat → List Char → List Char
  | 0, _, acc => acc
  | _ + 1, 0, acc => acc
  | f + 1, n + 1, acc => toBase36Aux f ((n + 1) / 36) (digitChar36 ((n + 1) % 36) :: acc)

/-- JS `n.toString(36)` for a nonnegative integer n. -/
def toBase36 (n : Nat) : String :=
  if n = 0 then "0" else String.mk (toBase36Aux n n [])

/-- A pending request, one entry of the `queue` map: the original payload
`req`, the `_t` timestamp, and (ghost) the identity `pid` of the promise
returned by postMsg.  `fwd` records a `.then(resolve, reject)` attachment made
by the command-cache replay: when this request settles, the promise `fwd`
settles with the same outcome and the replay loop continues. -/
structure Pending where
  req : Val
  t : Nat
  pid : Nat
  fwd : Option Nat

/-- One entry of cmdCache: the `[type, data]` arguments of a pre-readiness
emit call together with (ghost) the identity of the promise emit returned. -/
structure CmdEntry where
  ty : Val
  data : Val
  pid : Nat

/-- An inbound `evt.data` object: fields res, ok and _id (Val.undef when the
field is absent). -/
structure InMsg where
  res : Val
  ok : Val
  _id : Val

/-- Observable events: channel writes, promise settlements, the init promise
settling, an onPassiveMsg invocation, and worker.terminate. -/
inductive Ev where
  | send (msg : Val)
  | resolve (pid : Nat) (v : Val)
  | reject (pid : Nat) (v : Val)
  | resolveInit
  | rejectInit (v : Val)
  | passive (res ok : Val) (evtData : InMsg)
  | callMethod (ty : String) (d : Val)
  | warnUnrouted (evtData : InMsg)
  | workerTerminate

/-- The PromiseWorker instance state.  killed, idx, queue, cmdCache, ready and
worker are the JS fields; pidc, clock, sends, sendPlan and errPlan are ghost
instrumentation (see the header comment). -/
structure PW where
  killed : Nat
  idx : Nat
  queue : List (String × Pending)
  cmdCache : List CmdEntry
  ready : Bool
  worker : Bool
  pidc : Nat
  clock : Nat
  sends : Nat
  sendPlan : Nat → Bool
  errPlan : Nat → Val

/-- Key lookup in the insertion-ordered map. -/
def lookupKey : List (String × Pending) → String → Option Pending
  | [], _ => none
  | (k, p) :: rest, key => if k = key then some p else lookupKey rest key

/-- Key assignment `queue[k] = p`: overwrite in place if present, else append
(JS object insertion order). -/
def insertKey : List (String × Pending) → String → Pending → List (String × Pending)
  | [], key, p => [(key, p)]
  | (k, q) :: rest, key, p =>
    if k = key then (k, p) :: rest else (k, q) :: insertKey rest key p

/-- Key removal `delete queue[k]`. -/
def eraseKey : List (String × Pending) → String → List (String × Pending)
  | [], _ => []
  | (k, p) :: rest, key => if k = key then rest else (k, p) :: eraseKey rest key

/-- The outbound envelope `{_id, req}` passed to worker.postMessage. -/
def envelope (i : String) (req : Val) : Val :=
  .obj [("_id", .str i), ("req", req)]

/-- The `{type, data}` payload emit builds for postMsg. -/
def reqObj (ty data : Val) : Val :=
  .obj [("type", ty), ("data", data)]

/-- PromiseWorker.postMsg: allocate the next id (idx is incremented before
the try block), attempt the channel write, and on success insert the
PendingRequest; on a throwing write, reject the returned promise with the
thrown error and insert nothing.  The write succeeds iff a worker is attached
and the surrounding environment (sendPlan) lets postMessage return normally;
errPlan provides the thrown error value otherwise.  `fwd` is none for direct
calls and carries the replayed caller for command-cache dispatches. -/
def postMsgF (st : PW) (req : Val) (fwd : Option Nat) : PW × List Ev :=
  let pid := st.pidc
  let idx1 := st.idx + 1
  let i := toBase36 idx1
  let ok := st.worker && st.sendPlan st.sends
  let errv := st.errPlan st.sends
  let st1 := { st with pidc := st.pidc + 1, idx := idx1, sends := st.sends + 1 }
  if ok then
    ({ st1 with
        queue := insertKey st1.queue i ⟨req, st1.clock, pid, fwd⟩,
        clock := st1.clock + 1 },
      [Ev.send (envelope i req)])
  else
    (st1, [Ev.reject pid errv])

/-- PromiseWorker.emit: post immediately when ready, otherwise push the call
onto cmdCache (the returned promise is the fresh pid recorded there). -/
def emitF (st : PW) (ty data : Val) : PW × List Ev :=
  if st.ready then
    postMsgF st (reqObj ty data) none
  else
    ({ st with
        cmdCache := st.cmdCache ++ [⟨ty, data, st.pidc⟩],
        pidc := st.pidc + 1 },
      [])

/-- The `_runCmd` loop of _runCmdCache in the err === undefined case, with the
cache passed explicitly (the list argument always equals st.cmdCache).  Each
round shifts the head command and replays it through emit.  When the dispatch
succeeds the loop stops: the pending entry's fwd field carries the caller and
onMessage continues the loop when the reply settles it.  When the write throws,
the caller's promise rejects with the same error (the `.then` reject callback)
and the `.finally` callback runs the next round at once.  The ready test is
emit's own; a drain invoked with ready = false would re-queue the command
(this situation is not reached: the drain only ever starts after ready is
set). -/
def runCmdAux : List CmdEntry → PW → PW × List Ev
  | [], st => (st, [])
  | c :: cs, st =>
    let st1 := { st with cmdCache := cs }
    if st1.ready then
      let r := postMsgF st1 (reqObj c.ty c.data) (some c.pid)
      if st1.worker && st1.sendPlan st1.sends then r
      else
        let r2 := runCmdAux cs r.1
        (r2.1, r.2 ++ Ev.reject c.pid (st1.errPlan st1.sends) :: r2.2)
    else
      emitF st1 c.ty c.data

/-- One `_runCmd()` invocation on the current cache. -/
def runCmdLoop (st : PW) : PW × List Ev :=
  runCmdAux st.cmdCache st

/-- PromiseWorker._runCmdCache when called with a bootstrap error err: the
head command is shifted and rejected with err, and — since the error branch of
the ternary never re-invokes _runCmd — nothing further happens: the remaining
queued commands stay in cmdCache, unsettled. -/
def runCmdCacheErr (st : PW) (err : Val) : PW × List Ev :=
  match st.cmdCache with
  | [] => (st, [])
  | c :: cs => ({ st with cmdCache := cs }, [Ev.reject c.pid err])

/-- PromiseWorker._runCmdCache(err). -/
def runCmdCache (st : PW) (err : Option Val) : PW × List Ev :=
  match err with
  | none => runCmdLoop st
  | some e => runCmdCacheErr st e

/-- The worker.onmessage handler installed by init: ignore everything once
killed; treat any res equal to the ready sentinel as readiness (set ready,
rerun the cache drain, call init's resolve); otherwise settle a matching
pending request (resolve on +ok === 1, reject otherwise), remove it, and run
the `.then`/`.finally` microtasks when the entry was a replayed command;
otherwise hand the message to onPassiveMsg. -/
def onMessage (st : PW) (m : InMsg) : PW × List Ev :=
  if st.killed ≠ 0 then (st, [])
  else if isReadySentinel m.res then
    let st1 := { st with ready := true }
    let r := runCmdLoop st1
    (r.1, r.2 ++ [Ev.resolveInit])
  else
    match truthy m._id, lookupKey st.queue (jsToString m._id) with
    | true, some p =>
      let ev1 := if okIsOne m.ok then Ev.resolve p.pid m.res else Ev.reject p.pid m.res
      let st1 := { st with queue := eraseKey st.queue (jsToString m._id) }
      match p.fwd with
      | none => (st1, [ev1])
      | some c =>
        let ev2 := if okIsOne m.ok then Ev.resolve c m.res else Ev.reject c m.res
        let r := runCmdLoop st1
        (r.1, ev1 :: ev2 :: r.2)
    | _, _ => (st, [Ev.passive m.res m.ok m])

/-- The default onPassiveMsg built in init from options.methods: dispatch on
`(res || {}).type` when a handler exists, warn otherwise. -/
def defaultOnPassiveMsg (methods : List String) (res : Val) (evtData : InMsg) : Ev :=
  let base := jsOr res (.obj [])
  let ty := getField base "type"
  if truthy ty && methods.contains (jsToString ty) then
    Ev.callMethod (jsToString ty) (getField base "data")
  else
    Ev.warnUnrouted evtData

/-- The forEach body of PromiseWorker.remove over the queue snapshot: entries
whose (req, _t) satisfy the filter are rejected with the abort string and
deleted; the others are kept in order.  Also returns the fwd attachments of
the removed entries, whose microtask continuations removeF runs afterwards. -/
def removeScan : List (String × Pending) → (Val → Nat → Bool) →
    List (String × Pending) × List Ev × List Nat
  | [], _ => ([], [], [])
  | (k, p) :: rest, f =>
    let r := removeScan rest f
    if f p.req p.t then
      (r.1, Ev.reject p.pid (.str "Abort by remove.") :: r.2.1,
        (match p.fwd with | some c => c :: r.2.2 | none => r.2.2))
    else
      ((k, p) :: r.1, r.2.1, r.2.2)

/-- One `.finally(_runCmd)` continuation per rejected replayed entry. -/
def runConts : PW → List Nat → PW × List Ev
  | st, [] => (st, [])
  | st, _ :: rest =>
    let r := runCmdLoop st
    let r2 := runConts r.1 rest
    (r2.1, r.2 ++ r2.2)

/-- PromiseWorker.remove(filter): the synchronous scan, then — for each
removed entry that was a replayed command — the `.then` reject of the caller's
promise followed by the `.finally` drain continuations.  The instance itself
(with the filtered queue) is the returned value. -/
def removeF (st : PW) (f : Val → Nat → Bool) : PW × List Ev :=
  let r := removeScan st.queue f
  let st1 := { st with queue := r.1 }
  let evs2 := r.2.2.map (fun c => Ev.reject c (.str "Abort by remove."))
  let r2 := runConts st1 r.2.2
  (r2.1, r.2.1 ++ evs2 ++ r2.2)

/-- PromiseWorker.terminate: when a worker is attached, reset the id counter,
drop the pending map, set the kill flag and terminate the worker; otherwise do
nothing.  No pending promise is settled. -/
def terminateF (st : PW) : PW × List Ev :=
  if st.worker then
    ({ st with idx := 0, queue := [], killed := 1 }, [Ev.workerTerminate])
  else
    (st, [])

/-- The catch branch of init when context creation fails: run _runCmdCache
with the error, then reject init's promise with it. -/
def initCatch (st : PW) (err : Val) : PW × List Ev :=
  let r := runCmdCacheErr st err
  (r.1, r.2 ++ [Ev.rejectInit err])

/-- The then branch of init assigning `_t.worker = worker`. -/
def attachWorker (st : PW) : PW × List Ev :=
  ({ st with worker := true }, [])

/-- The host-side actions that drive a PromiseWorker instance. -/
inductive Act where
  | emit (ty data : Val)
  | post (req : Val)
  | msg (m : InMsg)
  | rem (f : Val → Nat → Bool)
  | term
  | bootFail (err : Val)
  | attach

/-- Interpretation of one action. -/
def stepF (st : PW) : Act → PW × List Ev
  | .emit ty data => emitF st ty data
  | .post req => postMsgF st req none
  | .msg m => onMessage st m
  | .rem f => removeF st f
  | .term => terminateF st
  | .bootFail err => initCatch st err
  | .attach => attachWorker st

/-- Interpretation of an action sequence, accumulating the trace. -/
def stepsF : PW → List Act → PW × List Ev
  | st, [] => (st, [])
  | st, a :: rest =>
    let r := stepF st a
    let r2 := stepsF r.1 rest
    (r2.1, r.2 ++ r2.2)

/-- The state built by the constructor, with a given environment plan. -/
def initPW (sp : Nat → Bool) (ep : Nat → Val) : PW :=
  { killed := 0, idx := 0, queue := [], cmdCache := [], ready := false,
    worker := false, pidc := 0, clock := 0, sends := 0,
    sendPlan := sp, errPlan := ep }

/-- Reachability: some action sequence from a constructed instance. -/
def Reach (st : PW) : Prop :=
  ∃ sp ep acts, (stepsF (initPW sp ep) acts).1 = st

/- ## Base-36 id theory -/

theorem toBase36Aux_zero (f : Nat) (acc : List Char) : toBase36Aux f 0 acc = acc := by
  cases f <;> rfl

theorem digitChar36_inj :
    ∀ d1, d1 < 36 → ∀ d2, d2 < 36 → digitChar36 d1 = digitChar36 d2 → d1 = d2 := by
  decide

theorem toBase36Aux_eq_digits :
    ∀ f n acc, 0 < n → n ≤ f →
      toBase36Aux f n acc = ((Nat.digits 36 n).map digitChar36).reverse ++ acc := by
  intro f
  induction f with
  | zero => intro n acc h1 h2; omega
  | succ f ih =>
    intro n acc h1 h2
    match n, h1 with
    | n + 1, _ =>
      rw [toBase36Aux]
      rw [Nat.digits_def' (by norm_num : (1:Nat) < 36) (Nat.succ_pos n)]
      rcases Nat.eq_zero_or_pos ((n + 1) / 36) with hq | hq
      · rw [hq, toBase36Aux_zero]
        simp
      · rw [ih _ _ hq (by
          have := Nat.div_lt_self (Nat.succ_pos n) (by norm_num : (1:Nat) < 36)
          omega)]
        simp

theorem map_digitChar36_inj :
    ∀ l1 l2 : List Nat, (∀ x ∈ l1, x < 36) → (∀ x ∈ l2, x < 36) →
      l1.map digitChar36 = l2.map digitChar36 → l1 = l2 := by
  intro l1
  induction l1 with
  | nil => intro l2 _ _ h; cases l2 <;> simp_all
  | cons a l1 ih =>
    intro l2 hb1 hb2 h
    cases l2 with
    | nil => simp at h
    | cons b l2 =>
      simp only [List.map_cons, List.cons.injEq] at h
      have ha := hb1 a (by simp)
      have hbb := hb2 b (by simp)
      have := digitChar36_inj a ha b hbb h.1
      have := ih l2 (fun x hx => hb1 x (by simp [hx])) (fun x hx => hb2 x (by simp [hx])) h.2
      simp_all

theorem toBase36_inj {a b : Nat} (ha : 0 < a) (hb : 0 < b)
    (h : toBase36 a = toBase36 b) : a = b := by
  unfold toBase36 at h
  rw [if_neg (by omega), if_neg (by omega)] at h
  rw [toBase36Aux_eq_digits a a [] ha le_rfl, toBase36Aux_eq_digits b b [] hb le_rfl] at h
  have h2 : ((Nat.digits 36 a).map digitChar36).reverse =
      ((Nat.digits 36 b).map digitChar36).reverse := by
    have := congrArg String.data h
    simpa using this
  have h3 : (Nat.digits 36 a).map digitChar36 = (Nat.digits 36 b).map digitChar36 :=
    List.reverse_injective h2
  have h4 : Nat.digits 36 a = Nat.digits 36 b :=
    map_digitChar36_inj _ _ (fun x hx => Nat.digits_lt_base (by norm_num) hx)
      (fun x hx => Nat.digits_lt_base (by norm_num) hx) h3
  have := congrArg (Nat.ofDigits 36) h4
  rwa [Nat.ofDigits_digits, Nat.ofDigits_digits] at this

theorem toBase36_ne_empty (n : Nat) : toBase36 n ≠ "" := by
  unfold toBase36
  split
  · decide
  · rename_i hn
    rw [toBase36Aux_eq_digits n n [] (Nat.pos_of_ne_zero hn) le_rfl]
    intro h
    have := congrArg String.data h
    simp at this
    exact Nat.digits_ne_nil_iff_ne_zero.mpr hn this

/- ## Association-list map lemmas -/

theorem lookupKey_eq_none (q : List (String × Pending)) (k : String)
    (h : k ∉ q.map Prod.fst) : lookupKey q k = none := by
  induction q with
  | nil => rfl
  | cons e rest ih =>
    obtain ⟨k1, p1⟩ := e
    simp only [List.map_cons, List.mem_cons] at h
    push_neg at h
    rw [lookupKey, if_neg (fun hh => h.1 hh.symm), ih h.2]

theorem lookupKey_mem (q : List (String × Pending)) (k : String) (p : Pending)
    (h : lookupKey q k = some p) : (k, p) ∈ q := by
  induction q with
  | nil => cases h
  | cons e rest ih =>
    obtain ⟨k1, p1⟩ := e
    rw [lookupKey] at h
    split at h
    · rename_i heq
      cases h
      simp [heq]
    · exact List.mem_cons_of_mem _ (ih h)

theorem insertKey_of_not_mem (q : List (String × Pending)) (k : String) (p : Pending)
    (h : k ∉ q.map Prod.fst) : insertKey q k p = q ++ [(k, p)] := by
  induction q with
  | nil => rfl
  | cons e rest ih =>
    obtain ⟨k1, p1⟩ := e
    simp only [List.map_cons, List.mem_cons] at h
    push_neg at h
    rw [insertKey, if_neg (fun hh => h.1 hh.symm), ih h.2]
    rfl

theorem eraseKey_sublist (q : List (String × Pending)) (k : String) :
    (eraseKey q k).Sublist q := by
  induction q with
  | nil => exact List.Sublist.refl _
  | cons e rest ih =>
    obtain ⟨k1, p1⟩ := e
    rw [eraseKey]
    split
    · exact List.sublist_cons_self _ _
    · exact List.Sublist.cons₂ _ ih

theorem lookupKey_eraseKey_self (q : List (String × Pending)) (k : String)
    (hnd : (q.map Prod.fst).Nodup) : lookupKey (eraseKey q k) k = none := by
  induction q with
  | nil => rfl
  | cons e rest ih =>
    obtain ⟨k1, p1⟩ := e
    simp only [List.map_cons, List.nodup_cons] at hnd
    rw [eraseKey]
    split
    · rename_i heq
      subst heq
      exact lookupKey_eq_none _ _ hnd.1
    · rename_i hne
      rw [lookupKey, if_neg hne, ih hnd.2]

theorem lookupKey_eraseKey_other (q : List (String × Pending)) (k k2 : String)
    (hne : k2 ≠ k) : lookupKey (eraseKey q k) k2 = lookupKey q k2 := by
  induction q with
  | nil => rfl
  | cons e rest ih =>
    obtain ⟨k1, p1⟩ := e
    rw [eraseKey]
    split
    · rename_i heq
      subst heq
      rw [lookupKey, if_neg (fun h => hne h.symm)]
    · rw [lookupKey, lookupKey, ih]

/- ## The correlation-id invariant (C4) and its preservation -/

/-- Every key of the pending map is the base-36 image of a positive counter
value at most the current idx. -/
def KeyBound (st : PW) : Prop :=
  ∀ e ∈ st.queue, ∃ n, 0 < n ∧ n ≤ st.idx ∧ e.1 = toBase36 n

/-- The pending-map invariant: no two entries share a key, and every key is a
bounded base-36 counter image. -/
def QInv (st : PW) : Prop :=
  (st.queue.map Prod.fst).Nodup ∧ KeyBound st

theorem qinv_of_fields {st1 st2 : PW} (h : QInv st1) (hq : st2.queue = st1.queue)
    (hi : st1.idx ≤ st2.idx) : QInv st2 := by
  obtain ⟨hnd, hb⟩ := h
  refine ⟨by rw [hq]; exact hnd, fun e he => ?_⟩
  rw [hq] at he
  obtain ⟨n, h1, h2, h3⟩ := hb e he
  exact ⟨n, h1, le_trans h2 hi, h3⟩

theorem postMsgF_idx (st : PW) (req : Val) (fwd : Option Nat) :
    (postMsgF st req fwd).1.idx = st.idx + 1 := by
  unfold postMsgF
  dsimp only
  split <;> rfl

theorem postMsgF_queue (st : PW) (req : Val) (fwd : Option Nat) :
    (postMsgF st req fwd).1.queue =
      insertKey st.queue (toBase36 (st.idx + 1)) ⟨req, st.clock, st.pidc, fwd⟩ ∨
    (postMsgF st req fwd).1.queue = st.queue := by
  unfold postMsgF
  dsimp only
  split
  · left; rfl
  · right; rfl

theorem postMsgF_inv (st : PW) (req : Val) (fwd : Option Nat) (h : QInv st) :
    QInv (postMsgF st req fwd).1 := by
  obtain ⟨hnd, hb⟩ := h
  have hidx := postMsgF_idx st req fwd
  rcases postMsgF_queue st req fwd with hq | hq
  · have hfresh : toBase36 (st.idx + 1) ∉ st.queue.map Prod.fst := by
      intro hmem
      obtain ⟨e, he, hfst⟩ := List.mem_map.mp hmem
      obtain ⟨n, hn0, hni, hkey⟩ := hb e he
      rw [hkey] at hfst
      have := toBase36_inj hn0 (Nat.succ_pos st.idx) hfst
      omega
    rw [insertKey_of_not_mem _ _ _ hfresh] at hq
    constructor
    · rw [hq]
      simp only [List.map_append, List.map_cons, List.map_nil]
      rw [List.nodup_append]
      refine ⟨hnd, List.nodup_singleton _, ?_⟩
      intro a ha hb2
      simp only [List.mem_singleton] at hb2
      subst hb2
      exact hfresh ha
    · intro e he
      rw [hq, List.mem_append] at he
      rw [hidx]
      rcases he with he | he
      · obtain ⟨n, h1, h2, h3⟩ := hb e he
        exact ⟨n, h1, by omega, h3⟩
      · simp only [List.mem_singleton] at he
        subst he
        exact ⟨st.idx + 1, Nat.succ_pos _, le_rfl, rfl⟩
  · constructor
    · rw [hq]; exact hnd
    · intro e he
      rw [hq] at he
      rw [hidx]
      obtain ⟨n, h1, h2, h3⟩ := hb e he
      exact ⟨n, h1, by omega, h3⟩

theorem emitF_inv (st : PW) (ty data : Val) (h : QInv st) : QInv (emitF st ty data).1 := by
  unfold emitF
  split
  · exact postMsgF_inv _ _ _ h
  · exact qinv_of_fields h rfl le_rfl

theorem runCmdAux_inv : ∀ (cs : List CmdEntry) (st : PW), QInv st →
    QInv (runCmdAux cs st).1 := by
  intro cs
  induction cs with
  | nil => intro st h; exact h
  | cons c cs ih =>
    intro st h
    rw [runCmdAux]
    dsimp only
    split
    · split
      · exact postMsgF_inv _ _ _ (qinv_of_fields h rfl le_rfl)
      · exact ih _ (postMsgF_inv _ _ _ (qinv_of_fields h rfl le_rfl))
    · exact emitF_inv _ _ _ (qinv_of_fields h rfl le_rfl)

theorem eraseKey_inv (st : PW) (k : String) (h : QInv st) :
    QInv { st with queue := eraseKey st.queue k } := by
  obtain ⟨hnd, hb⟩ := h
  constructor
  · exact List.Nodup.sublist (List.Sublist.map _ (eraseKey_sublist _ _)) hnd
  · intro e he
    exact hb e ((eraseKey_sublist st.queue k).mem he)

theorem onMessage_inv (st : PW) (m : InMsg) (h : QInv st) : QInv (onMessage st m).1 := by
  unfold onMessage
  split
  · exact h
  · split
    · exact runCmdAux_inv _ _ (qinv_of_fields h rfl le_rfl)
    · dsimp only
      split
      · rename_i p _ _
        match hf : p.fwd with
        | none => exact eraseKey_inv _ _ h
        | some c => exact runCmdAux_inv _ _ (eraseKey_inv _ _ h)
      · exact h

theorem removeScan_sublist (q : List (String × Pending)) (f : Val → Nat → Bool) :
    (removeScan q f).1.Sublist q := by
  induction q with
  | nil => exact List.Sublist.refl _
  | cons e rest ih =>
    obtain ⟨k1, p1⟩ := e
    rw [removeScan]
    split
    · exact List.Sublist.cons _ ih
    · exact List.Sublist.cons₂ _ ih

theorem runConts_inv : ∀ (l : List Nat) (st : PW), QInv st → QInv (runConts st l).1 := by
  intro l
  induction l with
  | nil => intro st h; exact h
  | cons c rest ih =>
    intro st h
    rw [runConts]
    exact ih _ (runCmdAux_inv _ _ h)

theorem removeF_inv (st : PW) (f : Val → Nat → Bool) (h : QInv st) :
    QInv (removeF st f).1 := by
  unfold removeF
  apply runConts_inv
  obtain ⟨hnd, hb⟩ := h
  constructor
  · exact List.Nodup.sublist (List.Sublist.map _ (removeScan_sublist _ _)) hnd
  · intro e he
    exact hb e ((removeScan_sublist st.queue f).mem he)

theorem terminateF_inv (st : PW) (h : QInv st) : QInv (terminateF st).1 := by
  unfold terminateF
  split
  · exact ⟨List.nodup_nil, fun e he => absurd he (List.not_mem_nil e)⟩
  · exact h

theorem initCatch_inv (st : PW) (err : Val) (h : QInv st) : QInv (initCatch st err).1 := by
  unfold initCatch runCmdCacheErr
  dsimp only
  split
  · exact h
  · exact qinv_of_fields h rfl le_rfl

theorem stepF_inv (st : PW) (a : Act) (h : QInv st) : QInv (stepF st a).1 := by
  cases a with
  | emit ty data => exact emitF_inv _ _ _ h
  | post req => exact postMsgF_inv _ _ _ h
  | msg m => exact onMessage_inv _ _ h
  | rem f => exact removeF_inv _ _ h
  | term => exact terminateF_inv _ h
  | bootFail err => exact initCatch_inv _ _ h
  | attach => exact qinv_of_fields h rfl le_rfl

theorem stepsF_inv : ∀ (acts : List Act) (st : PW), QInv st → QInv (stepsF st acts).1 := by
  intro acts
  induction acts with
  | nil => intro st h; exact h
  | cons a rest ih =>
    intro st h
    rw [stepsF]
    exact ih _ (stepF_inv _ _ h)

theorem reach_qinv (st : PW) (h : Reach st) : QInv st := by
  obtain ⟨sp, ep, acts, hs⟩ := h
  rw [← hs]
  exact stepsF_inv acts _ ⟨List.nodup_nil, fun e he => absurd he (List.not_mem_nil e)⟩

/- ## Counter monotonicity -/

theorem emitF_idx_mono (st : PW) (ty data : Val) : st.idx ≤ (emitF st ty data).1.idx := by
  unfold emitF
  split
  · rw [postMsgF_idx]; exact Nat.le_succ _
  · exact le_rfl

theorem runCmdAux_idx_mono : ∀ (cs : List CmdEntry) (st : PW),
    st.idx ≤ (runCmdAux cs st).1.idx := by
  intro cs
  induction cs with
  | nil => intro st; exact le_rfl
  | cons c cs ih =>
    intro st
    rw [runCmdAux]
    dsimp only
    split
    · split
      · rw [postMsgF_idx]; exact Nat.le_succ _
      · refine le_trans ?_ (ih (postMsgF { st with cmdCache := cs }
          (reqObj c.ty c.data) (some c.pid)).1)
        rw [postMsgF_idx]
        exact Nat.le_succ _
    · exact emitF_idx_mono { st with cmdCache := cs } c.ty c.data

theorem runConts_idx_mono : ∀ (l : List Nat) (st : PW), st.idx ≤ (runConts st l).1.idx := by
  intro l
  induction l with
  | nil => intro st; exact le_rfl
  | cons c rest ih =>
    intro st
    rw [runConts]
    exact le_trans (runCmdAux_idx_mono st.cmdCache st) (ih _)

theorem onMessage_idx_mono (st : PW) (m : InMsg) : st.idx ≤ (onMessage st m).1.idx := by
  unfold onMessage
  split
  · exact le_rfl
  · split
    · exact runCmdAux_idx_mono ({ st with ready := true } : PW).cmdCache { st with ready := true }
    · dsimp only
      split
      · rename_i p hp hl
        match p.fwd with
        | none => exact le_rfl
        | some c =>
          exact runCmdAux_idx_mono
            ({ st with queue := eraseKey st.queue (jsToString m._id) } : PW).cmdCache
            { st with queue := eraseKey st.queue (jsToString m._id) }
      · exact le_rfl

theorem stepF_idx_mono (st : PW) (a : Act) (h : a ≠ Act.term) :
    st.idx ≤ (stepF st a).1.idx := by
  cases a with
  | emit ty data => exact emitF_idx_mono _ _ _
  | post req => rw [stepF, postMsgF_idx]; exact Nat.le_succ _
  | msg m => exact onMessage_idx_mono _ _
  | rem f =>
    exact runConts_idx_mono (removeScan st.queue f).2.2
      { st with queue := (removeScan st.queue f).1 }
  | term => exact absurd rfl h
  | bootFail err =>
    rw [stepF]
    unfold initCatch runCmdCacheErr
    dsimp only
    split
    · exact le_rfl
    · exact le_rfl
  | attach => exact le_rfl

/-- A concrete reachable state with a worker attached, used by the witness. -/
def stW4 : PW := (stepsF (initPW (fun _ => true) (fun _ => Val.undef)) [Act.attach]).1

/-- C4: at every reachable state of a single PromiseWorker instance, no two
pending requests in the queue map share a correlation id; every key is the
base-36 encoding of a positive counter value bounded by the current idx; the
counter strictly increases (by one) on every postMsg call; terminate (on an
instance holding a worker) resets it to 0; and no action other than terminate
ever decreases it. -/
theorem c4_correlation_ids_unique :
    (∀ st : PW, Reach st → (st.queue.map Prod.fst).Nodup ∧
      ∀ e ∈ st.queue, ∃ n, 0 < n ∧ n ≤ st.idx ∧ e.1 = toBase36 n) ∧
    (∀ (st : PW) (req : Val) (fwd : Option Nat), (postMsgF st req fwd).1.idx = st.idx + 1) ∧
    (∀ st : PW, st.worker = true → (terminateF st).1.idx = 0) ∧
    (∀ (st : PW) (a : Act), a ≠ Act.term → st.idx ≤ (stepF st a).1.idx) := by
  refine ⟨fun st h => reach_qinv st h, postMsgF_idx, fun st h => ?_, stepF_idx_mono⟩
  unfold terminateF
  rw [if_pos h]

/-- Witness for C4 at a concrete reachable state. -/
theorem c4_witness :
    ((stW4.queue.map Prod.fst).Nodup ∧
      ∀ e ∈ stW4.queue, ∃ n, 0 < n ∧ n ≤ stW4.idx ∧ e.1 = toBase36 n) ∧
    (postMsgF stW4 Val.undef none).1.idx = stW4.idx + 1 ∧
    (terminateF stW4).1.idx = 0 ∧
    stW4.idx ≤ (stepF stW4 (Act.msg ⟨Val.undef, Val.undef, Val.undef⟩)).1.idx := by
  refine ⟨c4_correlation_ids_unique.1 stW4 ⟨_, _, [Act.attach], rfl⟩,
    c4_correlation_ids_unique.2.1 stW4 Val.undef none,
    c4_correlation_ids_unique.2.2.1 stW4 rfl,
    c4_correlation_ids_unique.2.2.2 stW4 _ (fun h => Act.noConfusion h)⟩

/- ## Kill-flag preservation -/

theorem postMsgF_killed (st : PW) (req : Val) (fwd : Option Nat) :
    (postMsgF st req fwd).1.killed = st.killed := by
  unfold postMsgF
  dsimp only
  split <;> rfl

theorem emitF_killed (st : PW) (ty data : Val) : (emitF st ty data).1.killed = st.killed := by
  unfold emitF
  split
  · exact postMsgF_killed _ _ _
  · rfl

theorem runCmdAux_killed : ∀ (cs : List CmdEntry) (st : PW),
    (runCmdAux cs st).1.killed = st.killed := by
  intro cs
  induction cs with
  | nil => intro st; rfl
  | cons c cs ih =>
    intro st
    rw [runCmdAux]
    dsimp only
    split
    · split
      · exact postMsgF_killed _ _ _
      · rw [ih, postMsgF_killed]
    · exact emitF_killed { st with cmdCache := cs } c.ty c.data

theorem runConts_killed : ∀ (l : List Nat) (st : PW),
    (runConts st l).1.killed = st.killed := by
  intro l
  induction l with
  | nil => intro st; rfl
  | cons c rest ih =>
    intro st
    rw [runConts]
    rw [ih]
    unfold runCmdLoop
    rw [runCmdAux_killed]

theorem onMessage_killed (st : PW) (m : InMsg) : (onMessage st m).1.killed = st.killed := by
  unfold onMessage
  split
  · rfl
  · split
    · exact runCmdAux_killed ({ st with ready := true } : PW).cmdCache { st with ready := true }
    · dsimp only
      split
      · rename_i p hp hl
        match p.fwd with
        | none => rfl
        | some c =>
          exact runCmdAux_killed
            ({ st with queue := eraseKey st.queue (jsToString m._id) } : PW).cmdCache
            { st with queue := eraseKey st.queue (jsToString m._id) }
      · rfl

theorem stepF_killed_one (st : PW) (a : Act) (h : st.killed = 1) :
    (stepF st a).1.killed = 1 := by
  cases a with
  | emit ty data => rw [stepF, emitF_killed]; exact h
  | post req => rw [stepF, postMsgF_killed]; exact h
  | msg m => rw [stepF, onMessage_killed]; exact h
  | rem f =>
    rw [stepF]
    unfold removeF
    rw [runConts_killed]
    exact h
  | term =>
    rw [stepF]
    unfold terminateF
    split
    · rfl
    · exact h
  | bootFail err =>
    rw [stepF]
    unfold initCatch runCmdCacheErr
    dsimp only
    split
    · exact h
    · exact h
  | attach => exact h

theorem stepsF_killed_one : ∀ (acts : List Act) (st : PW), st.killed = 1 →
    (stepsF st acts).1.killed = 1 := by
  intro acts
  induction acts with
  | nil => intro st h; exact h
  | cons a rest ih =>
    intro st h
    rw [stepsF]
    exact ih _ (stepF_killed_one _ _ h)

/-- C8: terminate is idempotent: applying it a second time leaves the
instance state (counter, pending map, kill flag, worker and all remaining
fields) exactly as the first application left it. -/
theorem c8_terminate_idempotent (st : PW) :
    (terminateF (terminateF st).1).1 = (terminateF st).1 := by
  unfold terminateF
  by_cases h : st.worker = true
  · rw [if_pos h]
    dsimp only
    rw [if_pos h]
  · rw [if_neg h]
    dsimp only
    rw [if_neg h]

/-- C9: terminate on an instance holding a worker resets the id counter to 0,
empties the pending map and sets the kill flag; it settles no promise (its
trace is just the worker.terminate call); and after it — and any further
actions — every inbound message is ignored entirely: the handler returns the
state unchanged and produces no event (no settlement, no passive dispatch). -/
theorem c9_terminate_kills (st : PW) (h : st.worker = true) :
    (terminateF st).1.idx = 0 ∧
    (terminateF st).1.queue = [] ∧
    (terminateF st).1.killed = 1 ∧
    (terminateF st).2 = [Ev.workerTerminate] ∧
    (∀ (pid : Nat) (v : Val), Ev.resolve pid v ∉ (terminateF st).2 ∧
      Ev.reject pid v ∉ (terminateF st).2) ∧
    (∀ (acts : List Act) (m : InMsg),
      onMessage (stepsF (terminateF st).1 acts).1 m = ((stepsF (terminateF st).1 acts).1, [])) := by
  unfold terminateF
  rw [if_pos h]
  refine ⟨rfl, rfl, rfl, rfl, ?_, ?_⟩
  · intro pid v
    constructor
    · intro hmem
      simp only [List.mem_singleton] at hmem
      cases hmem
    · intro hmem
      simp only [List.mem_singleton] at hmem
      cases hmem
  · intro acts m
    have hk : (stepsF { st with idx := 0, queue := [], killed := 1 } acts).1.killed = 1 :=
      stepsF_killed_one acts _ rfl
    unfold onMessage
    rw [if_pos (by rw [hk]; exact one_ne_zero)]

/-- Witness for C9 at a concrete reachable state with a worker. -/
theorem c9_witness :
    (terminateF stW4).1.idx = 0 ∧
    (terminateF stW4).1.queue = [] ∧
    (terminateF stW4).1.killed = 1 ∧
    onMessage (stepsF (terminateF stW4).1 []).1 ⟨Val.str "x", Val.num 1, Val.undef⟩ =
      ((stepsF (terminateF stW4).1 []).1, []) := by
  obtain ⟨h1, h2, h3, _, _, h6⟩ := c9_terminate_kills stW4 rfl
  exact ⟨h1, h2, h3, h6 [] _⟩

/- ## C6: channel-write failure -/

theorem fresh_key_not_mem (st : PW)
    (hb : ∀ e ∈ st.queue, ∃ n, 0 < n ∧ n ≤ st.idx ∧ e.1 = toBase36 n) :
    toBase36 (st.idx + 1) ∉ st.queue.map Prod.fst := by
  intro hmem
  obtain ⟨e, he, hfst⟩ := List.mem_map.mp hmem
  obtain ⟨n, hn0, hni, hkey⟩ := hb e he
  rw [hkey] at hfst
  have := toBase36_inj hn0 (Nat.succ_pos st.idx) hfst
  omega

/-- C6: when the channel write throws during emit/postMsg, the promise
returned by that single call is rejected with the thrown error, the pending
map is left exactly as it was, and in particular no entry for the id that was
allocated by this call exists afterwards; emit in the ready state delegates to
postMsg, so the same holds for it. -/
theorem c6_write_failure (st : PW) (req : Val)
    (hfail : (st.worker && st.sendPlan st.sends) = false)
    (hb : ∀ e ∈ st.queue, ∃ n, 0 < n ∧ n ≤ st.idx ∧ e.1 = toBase36 n) :
    postMsgF st req none =
      ({ st with pidc := st.pidc + 1, idx := st.idx + 1, sends := st.sends + 1 },
        [Ev.reject st.pidc (st.errPlan st.sends)]) ∧
    (postMsgF st req none).1.queue = st.queue ∧
    lookupKey (postMsgF st req none).1.queue (toBase36 (st.idx + 1)) = none ∧
    (∀ ty data, st.ready = true → emitF st ty data = postMsgF st (reqObj ty data) none) := by
  have h1 : postMsgF st req none =
      ({ st with pidc := st.pidc + 1, idx := st.idx + 1, sends := st.sends + 1 },
        [Ev.reject st.pidc (st.errPlan st.sends)]) := by
    unfold postMsgF
    dsimp only
    rw [hfail]
    rw [if_neg (by decide)]
  refine ⟨h1, by rw [h1], ?_, ?_⟩
  · rw [h1]
    exact lookupKey_eq_none _ _ (fresh_key_not_mem st hb)
  · intro ty data hr
    unfold emitF
    rw [if_pos hr]

/-- Witness for C6: a constructed instance with no worker attached, so the
write throws. -/
theorem c6_witness :
    postMsgF (initPW (fun _ => true) (fun _ => Val.str "err")) (Val.str "q") none =
      ({ initPW (fun _ => true) (fun _ => Val.str "err") with
          pidc := 1, idx := 1, sends := 1 },
        [Ev.reject 0 (Val.str "err")]) ∧
    lookupKey (postMsgF (initPW (fun _ => true) (fun _ => Val.str "err"))
      (Val.str "q") none).1.queue (toBase36 1) = none := by
  have h := c6_write_failure (initPW (fun _ => true) (fun _ => Val.str "err")) (Val.str "q")
    rfl (fun e he => absurd he (List.not_mem_nil e))
  exact ⟨h.1, h.2.2.1⟩

/- ## C1: bootstrap failure handling -/

/-- The state of an instance on which emit was called twice before readiness:
two commands sit in the cache. -/
def stC1 : PW :=
  (stepsF (initPW (fun _ => true) (fun _ => Val.undef))
    [Act.emit (Val.str "a") Val.undef, Act.emit (Val.str "b") Val.undef]).1

/-- C1 (code bug evidence): with two commands queued before readiness, a
bootstrap failure with error E rejects only the first queued command and then
init's promise; the second command is left in the cache, unsettled — the
cache is not drained in FIFO order and is not left empty, contrary to the
claim (the error branch of the _runCmd ternary never re-invokes _runCmd). -/
theorem c1_bootstrap_failure_eval :
    initCatch stC1 (Val.str "E") =
      ({ stC1 with cmdCache := [⟨Val.str "b", Val.undef, 1⟩] },
        [Ev.reject 0 (Val.str "E"), Ev.rejectInit (Val.str "E")]) ∧
    (initCatch stC1 (Val.str "E")).1.cmdCache ≠ [] := by
  constructor
  · rfl
  · intro h
    simp only [initCatch, runCmdCacheErr] at h
    revert h
    rw [show stC1.cmdCache = [⟨Val.str "a", Val.undef, 0⟩, ⟨Val.str "b", Val.undef, 1⟩] from rfl]
    intro h
    cases h

/- ## C7: remove(filter) -/

theorem removeScan_spec (f : Val → Nat → Bool) :
    ∀ q : List (String × Pending), (∀ e ∈ q, e.2.fwd = none) →
      removeScan q f =
        (q.filter (fun e => !f e.2.req e.2.t),
          (q.filter (fun e => f e.2.req e.2.t)).map
            (fun e => Ev.reject e.2.pid (Val.str "Abort by remove.")),
          []) := by
  intro q
  induction q with
  | nil => intro _; rfl
  | cons e rest ih =>
    intro hfwd
    obtain ⟨k1, p1⟩ := e
    have hrest := ih (fun e he => hfwd e (List.mem_cons_of_mem _ he))
    have hp1 : p1.fwd = none := hfwd (k1, p1) (List.mem_cons_self _ _)
    rw [removeScan, hrest]
    by_cases hf : f p1.req p1.t = true
    · rw [if_pos hf]
      rw [hp1]
      simp only [List.filter_cons, hf, Bool.not_true, List.map_cons]
      rfl
    · rw [if_neg hf]
      simp only [List.filter_cons, Bool.not_eq_true] at hf ⊢
      rw [hf]
      simp only [Bool.not_false]
      rfl

theorem lookupKey_filter_keep (f : Val → Nat → Bool) (k : String) (p : Pending) :
    ∀ q : List (String × Pending), lookupKey q k = some p → f p.req p.t = false →
      lookupKey (q.filter (fun e => !f e.2.req e.2.t)) k = some p := by
  intro q
  induction q with
  | nil => intro h; cases h
  | cons e rest ih =>
    intro hl hf
    obtain ⟨k1, p1⟩ := e
    rw [lookupKey] at hl
    by_cases hk : k1 = k
    · rw [if_pos hk] at hl
      cases hl
      have hb2 : (!f p.req p.t) = true := by rw [hf]; rfl
      rw [List.filter_cons, if_pos hb2]
      rw [lookupKey, if_pos hk]
    · rw [if_neg hk] at hl
      simp only [List.filter_cons]
      split
      · rw [lookupKey, if_neg hk]
        exact ih hl hf
      · exact ih hl hf

/-- C7: when no pending entry is a replayed command (the common case, so no
drain continuations fire), remove(filter) rejects — with the abort string, in
queue order — exactly the pending requests whose (originalPayload, createdAt)
satisfy the filter, deletes exactly those from the map, returns the instance
itself with only the queue field changed, and every entry the filter does not
match is left in place: it is still pending under the same key with the same
record. -/
theorem c7_remove_filter (st : PW) (f : Val → Nat → Bool)
    (hfwd : ∀ e ∈ st.queue, e.2.fwd = none) :
    removeF st f =
      ({ st with queue := st.queue.filter (fun e => !f e.2.req e.2.t) },
        (st.queue.filter (fun e => f e.2.req e.2.t)).map
          (fun e => Ev.reject e.2.pid (Val.str "Abort by remove."))) ∧
    (∀ k p, lookupKey st.queue k = some p → f p.req p.t = false →
      lookupKey (removeF st f).1.queue k = some p) := by
  have hscan := removeScan_spec f st.queue hfwd
  have h1 : removeF st f =
      ({ st with queue := st.queue.filter (fun e => !f e.2.req e.2.t) },
        (st.queue.filter (fun e => f e.2.req e.2.t)).map
          (fun e => Ev.reject e.2.pid (Val.str "Abort by remove."))) := by
    unfold removeF
    rw [hscan]
    dsimp only
    rw [runConts]
    simp
  refine ⟨h1, ?_⟩
  intro k p hl hf
  rw [h1]
  exact lookupKey_filter_keep f k p st.queue hl hf

/-- Witness for C7 on a concrete two-entry queue, where the filter matches
exactly the first entry. -/
theorem c7_witness :
    removeF { initPW (fun _ => true) (fun _ => Val.undef) with
        queue := [("1", ⟨Val.str "a", 5, 0, none⟩), ("2", ⟨Val.str "b", 6, 1, none⟩)] }
      (fun v _ => match v with | Val.str s => s = "a" | _ => false) =
      ({ initPW (fun _ => true) (fun _ => Val.undef) with
          queue := [("2", ⟨Val.str "b", 6, 1, none⟩)] },
        [Ev.reject 0 (Val.str "Abort by remove.")]) ∧
    lookupKey (removeF { initPW (fun _ => true) (fun _ => Val.undef) with
        queue := [("1", ⟨Val.str "a", 5, 0, none⟩), ("2", ⟨Val.str "b", 6, 1, none⟩)] }
      (fun v _ => match v with | Val.str s => s = "a" | _ => false)).1.queue "2" =
      some ⟨Val.str "b", 6, 1, none⟩ := by
  have h := c7_remove_filter
    { initPW (fun _ => true) (fun _ => Val.undef) with
        queue := [("1", ⟨Val.str "a", 5, 0, none⟩), ("2", ⟨Val.str "b", 6, 1, none⟩)] }
    (fun v _ => match v with | Val.str s => s = "a" | _ => false)
    (by
      intro e he
      rcases List.mem_cons.mp he with h1 | h1
      · subst h1; rfl
      · rw [List.mem_singleton] at h1; subst h1; rfl)
  refine ⟨?_, h.2 "2" ⟨Val.str "b", 6, 1, none⟩ rfl rfl⟩
  rw [h.1]
  rfl

/- ## C10: stale correlation ids fall through to the passive path -/

/-- A freshly constructed instance (empty pending map). -/
def stC10 : PW := initPW (fun _ => true) (fun _ => Val.undef)

/-- Counterexample to C10 as stated: a message with a stale _id is NOT
handled exactly as the same message without _id — both go to onPassiveMsg with
the same res and ok, but the third argument (the raw evtData) differs, since
it retains the stale _id. -/
theorem c10_counterexample :
    onMessage stC10 ⟨Val.str "x", Val.num 1, Val.str "zz"⟩ ≠
      onMessage stC10 ⟨Val.str "x", Val.num 1, Val.undef⟩ := by
  intro h
  have hL : onMessage stC10 ⟨Val.str "x", Val.num 1, Val.str "zz"⟩ =
      (stC10, [Ev.passive (Val.str "x") (Val.num 1) ⟨Val.str "x", Val.num 1, Val.str "zz"⟩]) := rfl
  have hR : onMessage stC10 ⟨Val.str "x", Val.num 1, Val.undef⟩ =
      (stC10, [Ev.passive (Val.str "x") (Val.num 1) ⟨Val.str "x", Val.num 1, Val.undef⟩]) := rfl
  rw [hL, hR] at h
  simp at h

/-- C10 (amended): an inbound message carrying a truthy _id that matches no
entry of the pending map (instance not killed, res not the ready sentinel) is
not dropped: it falls through to the passive path with the state unchanged,
and onPassiveMsg receives the same res and ok as it would for the same
message without _id — only the raw evtData argument differs, by retaining the
stale _id; the default methods-keyed dispatcher consults only res to pick a
handler, so its dispatch decision is identical, and the evtData difference
shows up solely in its no-handler warning. -/
theorem c10_stale_id_passive (st : PW) (m : InMsg)
    (hk : st.killed = 0) (hs : isReadySentinel m.res = false)
    (ht : truthy m._id = true)
    (hl : lookupKey st.queue (jsToString m._id) = none)
    (hl2 : lookupKey st.queue (jsToString Val.undef) = none) :
    onMessage st m = (st, [Ev.passive m.res m.ok m]) ∧
    onMessage st ⟨m.res, m.ok, Val.undef⟩ =
      (st, [Ev.passive m.res m.ok ⟨m.res, m.ok, Val.undef⟩]) ∧
    (∀ methods : List String,
      defaultOnPassiveMsg methods m.res m = Ev.warnUnrouted m ∧
        defaultOnPassiveMsg methods m.res ⟨m.res, m.ok, Val.undef⟩ =
          Ev.warnUnrouted ⟨m.res, m.ok, Val.undef⟩ ∨
      defaultOnPassiveMsg methods m.res m =
        defaultOnPassiveMsg methods m.res ⟨m.res, m.ok, Val.undef⟩) := by
  refine ⟨?_, ?_, ?_⟩
  · unfold onMessage
    rw [if_neg (by simp [hk]), if_neg (by simp [hs]), ht, hl]
  · unfold onMessage
    rw [if_neg (by simp [hk]), if_neg (by simp [hs])]
    dsimp only
    rw [hl2]
    rfl
  · intro methods
    unfold defaultOnPassiveMsg
    dsimp only
    split
    · right; rfl
    · left; exact ⟨rfl, rfl⟩

/-- Witness for the amended C10 at a concrete message and instance. -/
theorem c10_witness :
    onMessage stC10 ⟨Val.str "x", Val.num 1, Val.str "zz"⟩ =
      (stC10, [Ev.passive (Val.str "x") (Val.num 1) ⟨Val.str "x", Val.num 1, Val.str "zz"⟩]) ∧
    onMessage stC10 ⟨Val.str "x", Val.num 1, Val.undef⟩ =
      (stC10, [Ev.passive (Val.str "x") (Val.num 1) ⟨Val.str "x", Val.num 1, Val.undef⟩]) := by
  have h := c10_stale_id_passive stC10 ⟨Val.str "x", Val.num 1, Val.str "zz"⟩
    rfl rfl rfl rfl rfl
  exact ⟨h.1, h.2.1⟩

/- ## C5: readiness handling is not latched -/

theorem emitF_ready (st : PW) (ty data : Val) : (emitF st ty data).1.ready = st.ready := by
  unfold emitF postMsgF
  dsimp only
  split
  · split <;> rfl
  · rfl

theorem postMsgF_ready (st : PW) (req : Val) (fwd : Option Nat) :
    (postMsgF st req fwd).1.ready = st.ready := by
  unfold postMsgF
  dsimp only
  split <;> rfl

theorem runCmdAux_ready : ∀ (cs : List CmdEntry) (st : PW),
    (runCmdAux cs st).1.ready = st.ready := by
  intro cs
  induction cs with
  | nil => intro st; rfl
  | cons c cs ih =>
    intro st
    rw [runCmdAux]
    dsimp only
    split
    · split
      · exact postMsgF_ready _ _ _
      · rw [ih, postMsgF_ready]
    · exact emitF_ready { st with cmdCache := cs } c.ty c.data

theorem postMsgF_events_success (st : PW) (req : Val) (fwd : Option Nat)
    (h : (st.worker && st.sendPlan st.sends) = true) :
    (postMsgF st req fwd).2 = [Ev.send (envelope (toBase36 (st.idx + 1)) req)] := by
  unfold postMsgF
  dsimp only
  rw [h, if_pos rfl]

/-- The mid-replay state used for C5: a worker instance on which two commands
were queued before readiness and the first ready sentinel has been handled, so
the instance is ready, the first command is in flight and the second still
sits in cmdCache. -/
def stC5 : PW :=
  (stepsF (initPW (fun _ => true) (fun _ => Val.undef))
    [Act.attach, Act.emit (Val.str "a") Val.undef, Act.emit (Val.str "b") Val.undef,
      Act.msg ⟨Val.str "ready by PromiseWorker.after", Val.undef, Val.undef⟩]).1

/-- Counterexample to C5 as stated: at the reachable mid-replay state stC5
(already ready, one command still cached), a second inbound message carrying
the ready sentinel IS treated as a readiness signal again: it re-runs the
command-cache flush — dispatching the cached command over the channel — and
invokes init's resolve again, contrary to the claim that the flush is not
re-triggered. -/
theorem c5_counterexample :
    stC5.ready = true ∧
    stC5.cmdCache = [⟨Val.str "b", Val.undef, 1⟩] ∧
    (onMessage stC5 ⟨Val.str "ready by PromiseWorker.after", Val.undef, Val.undef⟩).2 =
      [Ev.send (envelope "2" (reqObj (Val.str "b") Val.undef)), Ev.resolveInit] ∧
    (onMessage stC5 ⟨Val.str "ready by PromiseWorker.after", Val.undef, Val.undef⟩).1.cmdCache =
      [] := by
  exact ⟨rfl, rfl, rfl, rfl⟩

/-- C5 (amended): the host's sentinel handling carries no once-only latch:
whenever the instance is not killed, ANY inbound message whose res equals the
ready sentinel sets the ready flag, re-runs the command-cache flush and calls
init's resolve again (without effect on the already settled promise); in
particular, when the cache is non-empty and the channel accepts the write, a
later sentinel message dispatches the head cached command again. -/
theorem c5_sentinel_not_latched (st : PW) (m : InMsg)
    (hk : st.killed = 0) (hs : isReadySentinel m.res = true) :
    (onMessage st m).1.ready = true ∧
    (onMessage st m).2 = (runCmdLoop { st with ready := true }).2 ++ [Ev.resolveInit] ∧
    (∀ c cs, st.cmdCache = c :: cs → st.worker = true → st.sendPlan st.sends = true →
      (onMessage st m).2 =
        [Ev.send (envelope (toBase36 (st.idx + 1)) (reqObj c.ty c.data)), Ev.resolveInit]) := by
  have hmain : onMessage st m =
      ((runCmdLoop { st with ready := true }).1,
        (runCmdLoop { st with ready := true }).2 ++ [Ev.resolveInit]) := by
    unfold onMessage
    rw [if_neg (by simp [hk]), if_pos hs]
  refine ⟨?_, by rw [hmain], ?_⟩
  · rw [hmain]
    dsimp only
    unfold runCmdLoop
    rw [runCmdAux_ready]
  · intro c cs hc hw hp
    rw [hmain]
    dsimp only
    unfold runCmdLoop
    rw [show ({ st with ready := true } : PW).cmdCache = c :: cs from hc]
    rw [runCmdAux]
    dsimp only
    rw [if_pos rfl]
    have hcond : (({ st with ready := true, cmdCache := cs } : PW).worker &&
        ({ st with ready := true, cmdCache := cs } : PW).sendPlan
          ({ st with ready := true, cmdCache := cs } : PW).sends) = true := by
      dsimp only
      rw [hw, hp]
      rfl
    rw [if_pos hcond]
    rw [postMsgF_events_success _ _ _ hcond]
    rfl

/-- Witness for the amended C5 at the concrete mid-replay state. -/
theorem c5_witness :
    (onMessage stC5 ⟨Val.str "ready by PromiseWorker.after", Val.undef, Val.undef⟩).1.ready =
      true ∧
    (onMessage stC5 ⟨Val.str "ready by PromiseWorker.after", Val.undef, Val.undef⟩).2 =
      [Ev.send (envelope (toBase36 (stC5.idx + 1)) (reqObj (Val.str "b") Val.undef)),
        Ev.resolveInit] := by
  have h := c5_sentinel_not_latched stC5
    ⟨Val.str "ready by PromiseWorker.after", Val.undef, Val.undef⟩ rfl rfl
  exact ⟨h.1, h.2.2 ⟨Val.str "b", Val.undef, 1⟩ [] rfl rfl rfl⟩

/- ## C2: reply correlation -/

theorem postMsgF_pidc (st : PW) (req : Val) (fwd : Option Nat) :
    (postMsgF st req fwd).1.pidc = st.pidc + 1 := by
  unfold postMsgF
  dsimp only
  split <;> rfl

theorem postMsgF_events_failure (st : PW) (req : Val) (fwd : Option Nat)
    (h : (st.worker && st.sendPlan st.sends) = false) :
    (postMsgF st req fwd).2 = [Ev.reject st.pidc (st.errPlan st.sends)] := by
  unfold postMsgF
  dsimp only
  rw [h]
  rw [if_neg (by decide)]

/-- Settlement events produced by the drain loop concern only promises of
cached commands or promises allocated during the drain (at or above the
current pidc): never an older pending promise. -/
theorem runCmdAux_settle_pids : ∀ (cs : List CmdEntry) (st : PW) (pid : Nat) (v : Val),
    (Ev.resolve pid v ∈ (runCmdAux cs st).2 ∨ Ev.reject pid v ∈ (runCmdAux cs st).2) →
    (∃ c, c ∈ cs ∧ pid = c.pid) ∨ st.pidc ≤ pid := by
  intro cs
  induction cs with
  | nil =>
    intro st pid v h
    rcases h with h | h <;> simp [runCmdAux] at h
  | cons c cs ih =>
    intro st pid v h
    rw [runCmdAux] at h
    dsimp only at h
    by_cases hr : ({ st with cmdCache := cs } : PW).ready = true
    · rw [if_pos hr] at h
      by_cases hok : (({ st with cmdCache := cs } : PW).worker &&
          ({ st with cmdCache := cs } : PW).sendPlan ({ st with cmdCache := cs } : PW).sends) =
          true
      · rw [if_pos hok] at h
        rw [postMsgF_events_success _ _ _ hok] at h
        rcases h with h | h <;> simp at h
      · rw [Bool.not_eq_true] at hok
        rw [if_neg (by simp [hok])] at h
        rw [postMsgF_events_failure _ _ _ hok] at h
        have hstep : ∀ w : Ev, w ∈ ([Ev.reject ({ st with cmdCache := cs } : PW).pidc
              (({ st with cmdCache := cs } : PW).errPlan ({ st with cmdCache := cs } : PW).sends)] ++
              Ev.reject c.pid (({ st with cmdCache := cs } : PW).errPlan
                ({ st with cmdCache := cs } : PW).sends) ::
              (runCmdAux cs (postMsgF { st with cmdCache := cs } (reqObj c.ty c.data)
                (some c.pid)).1).2) →
            w = Ev.reject st.pidc (st.errPlan st.sends) ∨
            w = Ev.reject c.pid (st.errPlan st.sends) ∨
            w ∈ (runCmdAux cs (postMsgF { st with cmdCache := cs } (reqObj c.ty c.data)
              (some c.pid)).1).2 := by
          intro w hw
          rcases List.mem_append.mp hw with hw | hw
          · left; exact List.mem_singleton.mp hw
          · rcases List.mem_cons.mp hw with hw | hw
            · right; left; exact hw
            · right; right; exact hw
        have hdrain : ∀ pid2 v2,
            (Ev.resolve pid2 v2 ∈ (runCmdAux cs (postMsgF { st with cmdCache := cs }
                (reqObj c.ty c.data) (some c.pid)).1).2 ∨
              Ev.reject pid2 v2 ∈ (runCmdAux cs (postMsgF { st with cmdCache := cs }
                (reqObj c.ty c.data) (some c.pid)).1).2) →
            (∃ c2, c2 ∈ cs ∧ pid2 = c2.pid) ∨ st.pidc + 1 ≤ pid2 := by
          intro pid2 v2 h2
          rcases ih _ pid2 v2 h2 with hc | hge
          · exact Or.inl hc
          · right
            rw [postMsgF_pidc] at hge
            exact hge
        rcases h with h | h
        · rcases hstep _ h with h2 | h2 | h2
          · cases h2
          · cases h2
          · rcases hdrain pid v (Or.inl h2) with ⟨c2, hc2, he⟩ | hge
            · exact Or.inl ⟨c2, List.mem_cons_of_mem _ hc2, he⟩
            · right; omega
        · rcases hstep _ h with h2 | h2 | h2
          · cases h2; right; exact le_rfl
          · cases h2; exact Or.inl ⟨c, List.mem_cons_self _ _, rfl⟩
          · rcases hdrain pid v (Or.inr h2) with ⟨c2, hc2, he⟩ | hge
            · exact Or.inl ⟨c2, List.mem_cons_of_mem _ hc2, he⟩
            · right; omega
    · rw [if_neg hr] at h
      have he : (emitF { st with cmdCache := cs } c.ty c.data).2 = [] := by
        unfold emitF
        rw [if_neg hr]
      rw [he] at h
      rcases h with h | h <;> cases h

/-- Where settlement events of the message handler can come from: any resolve
or reject of a promise that is neither a cached command’s nor drain-allocated
must stem from the pending entry looked up under the message’s own _id — its
own promise or its forwarded caller — carrying the message’s res, resolving
exactly when +ok === 1. -/
theorem onMessage_settle_src (st : PW) (m : InMsg) (pid : Nat) (v : Val)
    (hk : st.killed = 0)
    (hB : ∀ c ∈ st.cmdCache, c.pid ≠ pid) (hC : pid < st.pidc)
    (hmem : Ev.resolve pid v ∈ (onMessage st m).2 ∨ Ev.reject pid v ∈ (onMessage st m).2) :
    ∃ q, lookupKey st.queue (jsToString m._id) = some q ∧
      (q.pid = pid ∨ q.fwd = some pid) ∧ v = m.res ∧
      (Ev.resolve pid v ∈ (onMessage st m).2 → okIsOne m.ok = true) ∧
      (Ev.reject pid v ∈ (onMessage st m).2 → okIsOne m.ok = false) := by
  have hnk : ¬(st.killed ≠ 0) := by simp [hk]
  have hdrain : ∀ st2 : PW, st2.cmdCache = st.cmdCache → st2.pidc = st.pidc →
      (Ev.resolve pid v ∈ (runCmdAux st2.cmdCache st2).2 ∨
        Ev.reject pid v ∈ (runCmdAux st2.cmdCache st2).2) → False := by
    intro st2 hcc hpc hm
    rcases runCmdAux_settle_pids st2.cmdCache st2 pid v hm with ⟨c, hc, he⟩ | hge
    · rw [hcc] at hc
      exact hB c hc he.symm
    · rw [hpc] at hge
      omega
  by_cases hsent : isReadySentinel m.res = true
  · exfalso
    have hE : (onMessage st m).2 =
        (runCmdAux ({ st with ready := true } : PW).cmdCache { st with ready := true }).2 ++
          [Ev.resolveInit] := by
      unfold onMessage
      rw [if_neg hnk, if_pos hsent]
      rfl
    rw [hE] at hmem
    have hm2 : Ev.resolve pid v ∈
        (runCmdAux ({ st with ready := true } : PW).cmdCache { st with ready := true }).2 ∨
        Ev.reject pid v ∈
        (runCmdAux ({ st with ready := true } : PW).cmdCache { st with ready := true }).2 := by
      rcases hmem with h | h
      · rcases List.mem_append.mp h with h2 | h2
        · exact Or.inl h2
        · simp at h2
      · rcases List.mem_append.mp h with h2 | h2
        · exact Or.inr h2
        · simp at h2
    exact hdrain { st with ready := true } rfl rfl hm2
  · rw [Bool.not_eq_true] at hsent
    cases ht : truthy m._id
    · exfalso
      cases hlk : lookupKey st.queue (jsToString m._id) <;>
        · have hE : (onMessage st m).2 = [Ev.passive m.res m.ok m] := by
            unfold onMessage
            rw [if_neg hnk, if_neg (by simp [hsent]), ht, hlk]
          rw [hE] at hmem
          rcases hmem with h | h <;> simp at h
    · cases hlk : lookupKey st.queue (jsToString m._id)
      · exfalso
        have hE : (onMessage st m).2 = [Ev.passive m.res m.ok m] := by
          unfold onMessage
          rw [if_neg hnk, if_neg (by simp [hsent]), ht, hlk]
        rw [hE] at hmem
        rcases hmem with h | h <;> simp at h
      · rename_i q
        refine ⟨q, rfl, ?_⟩
        cases hqf : q.fwd
        · have hE : (onMessage st m).2 =
              [if okIsOne m.ok = true then Ev.resolve q.pid m.res
                else Ev.reject q.pid m.res] := by
            unfold onMessage
            rw [if_neg hnk, if_neg (by simp [hsent]), ht, hlk]
            dsimp only
            rw [hqf]
          rw [hE] at hmem ⊢
          cases hok : okIsOne m.ok
          · rw [hok] at hmem
            simp only [reduceIte] at hmem ⊢
            rcases hmem with h | h
            · rw [List.mem_singleton] at h
              cases h
            · rw [List.mem_singleton] at h
              injection h with h1 h2
              exact ⟨Or.inl h1.symm, h2, fun h3 => by simp at h3, fun _ => by trivial⟩
          · rw [hok] at hmem
            simp only [reduceIte] at hmem ⊢
            rcases hmem with h | h
            · rw [List.mem_singleton] at h
              injection h with h1 h2
              exact ⟨Or.inl h1.symm, h2, fun _ => by trivial, fun h3 => by simp at h3⟩
            · rw [List.mem_singleton] at h
              cases h
        · rename_i c
          have hE : (onMessage st m).2 =
              (if okIsOne m.ok = true then Ev.resolve q.pid m.res
                else Ev.reject q.pid m.res) ::
              (if okIsOne m.ok = true then Ev.resolve c m.res
                else Ev.reject c m.res) ::
              (runCmdAux ({ st with
                  queue := eraseKey st.queue (jsToString m._id) } : PW).cmdCache
                { st with queue := eraseKey st.queue (jsToString m._id) }).2 := by
            unfold onMessage
            rw [if_neg hnk, if_neg (by simp [hsent]), ht, hlk]
            dsimp only
            rw [hqf]
            rfl
          have hdr2 : ∀ hm : Ev.resolve pid v ∈
              (runCmdAux ({ st with
                  queue := eraseKey st.queue (jsToString m._id) } : PW).cmdCache
                { st with queue := eraseKey st.queue (jsToString m._id) }).2 ∨
              Ev.reject pid v ∈
              (runCmdAux ({ st with
                  queue := eraseKey st.queue (jsToString m._id) } : PW).cmdCache
                { st with queue := eraseKey st.queue (jsToString m._id) }).2, False :=
            fun hm =>
              hdrain { st with queue := eraseKey st.queue (jsToString m._id) } rfl rfl hm
          rw [hE] at hmem ⊢
          cases hok : okIsOne m.ok
          · rw [hok] at hmem
            simp only [reduceIte] at hmem ⊢
            have hnores : Ev.resolve pid v ∉
                Ev.reject q.pid m.res :: Ev.reject c m.res ::
                (runCmdAux ({ st with
                    queue := eraseKey st.queue (jsToString m._id) } : PW).cmdCache
                  { st with queue := eraseKey st.queue (jsToString m._id) }).2 := by
              intro h3
              rcases List.mem_cons.mp h3 with h4 | h4
              · cases h4
              · rcases List.mem_cons.mp h4 with h5 | h5
                · cases h5
                · exact hdr2 (Or.inl h5)
            rcases hmem with h | h
            · exact absurd h hnores
            · rcases List.mem_cons.mp h with h2 | h2
              · injection h2 with h1 h2b
                exact ⟨Or.inl h1.symm, h2b, fun h3 => absurd h3 hnores, fun _ => by trivial⟩
              · rcases List.mem_cons.mp h2 with h3 | h3
                · injection h3 with h1 h2b
                  exact ⟨Or.inr (by rw [h1]), h2b, fun h4 => absurd h4 hnores,
                    fun _ => by trivial⟩
                · exact absurd (Or.inr h3) hdr2
          · rw [hok] at hmem
            simp only [reduceIte] at hmem ⊢
            have hnorej : Ev.reject pid v ∉
                Ev.resolve q.pid m.res :: Ev.resolve c m.res ::
                (runCmdAux ({ st with
                    queue := eraseKey st.queue (jsToString m._id) } : PW).cmdCache
                  { st with queue := eraseKey st.queue (jsToString m._id) }).2 := by
              intro h3
              rcases List.mem_cons.mp h3 with h4 | h4
              · cases h4
              · rcases List.mem_cons.mp h4 with h5 | h5
                · cases h5
                · exact hdr2 (Or.inr h5)
            rcases hmem with h | h
            · rcases List.mem_cons.mp h with h2 | h2
              · injection h2 with h1 h2b
                exact ⟨Or.inl h1.symm, h2b, fun _ => by trivial, fun h3 => absurd h3 hnorej⟩
              · rcases List.mem_cons.mp h2 with h3 | h3
                · injection h3 with h1 h2b
                  exact ⟨Or.inr (by rw [h1]), h2b, fun _ => by trivial,
                    fun h4 => absurd h4 hnorej⟩
                · exact absurd (Or.inl h3) hdr2
            · exact absurd h hnorej

/-- C2: for a request pending while the instance is Ready (an entry of the
queue map created by emit/postMsg, with no replay forwarding), the promise
settles exactly once and only via an inbound message whose _id equals the
correlation id generated at send time: such a message resolves it with res
when ok is 1 and rejects it with res when ok is 0, and removes the entry from
the map (so a second matching message cannot settle it again); conversely,
any settlement event for this promise can only arise from a message whose
_id keys to this entry, carries this res, and whose ok decides the polarity.
The pid-freshness hypotheses say the ghost promise identifier of this entry
is not shared by other entries, forwarders or cached commands. -/
theorem c2_reply_correlation (st : PW) (i : String) (p : Pending)
    (hk : st.killed = 0) (hnd : (st.queue.map Prod.fst).Nodup)
    (hl : lookupKey st.queue i = some p) (hfwd : p.fwd = none) (hi : i ≠ "")
    (hA : ∀ j q, lookupKey st.queue j = some q → j ≠ i →
      q.pid ≠ p.pid ∧ q.fwd ≠ some p.pid)
    (hB : ∀ c ∈ st.cmdCache, c.pid ≠ p.pid) (hC : p.pid < st.pidc) :
    (∀ resv okv, isReadySentinel resv = false →
      onMessage st ⟨resv, okv, Val.str i⟩ =
        ({ st with queue := eraseKey st.queue i },
          [if okIsOne okv = true then Ev.resolve p.pid resv else Ev.reject p.pid resv])) ∧
    lookupKey (eraseKey st.queue i) i = none ∧
    (∀ (m : InMsg) (v : Val), Ev.resolve p.pid v ∈ (onMessage st m).2 →
      jsToString m._id = i ∧ v = m.res ∧ okIsOne m.ok = true) ∧
    (∀ (m : InMsg) (v : Val), Ev.reject p.pid v ∈ (onMessage st m).2 →
      jsToString m._id = i ∧ v = m.res ∧ okIsOne m.ok = false) := by
  have honly : ∀ (m : InMsg) (v : Val),
      (Ev.resolve p.pid v ∈ (onMessage st m).2 ∨ Ev.reject p.pid v ∈ (onMessage st m).2) →
      jsToString m._id = i ∧ v = m.res ∧
        (Ev.resolve p.pid v ∈ (onMessage st m).2 → okIsOne m.ok = true) ∧
        (Ev.reject p.pid v ∈ (onMessage st m).2 → okIsOne m.ok = false) := by
    intro m v hmem
    obtain ⟨q, hlkq, hpq, hv, himp1, himp2⟩ :=
      onMessage_settle_src st m p.pid v hk hB hC hmem
    by_cases hki : jsToString m._id = i
    · rw [hki] at hlkq
      rw [hl] at hlkq
      cases hlkq
      exact ⟨hki, hv, himp1, himp2⟩
    · exfalso
      obtain ⟨hq1, hq2⟩ := hA (jsToString m._id) q hlkq hki
      rcases hpq with h | h
      · exact hq1 h
      · exact hq2 h
  refine ⟨?_, lookupKey_eraseKey_self st.queue i hnd, ?_, ?_⟩
  · intro resv okv hs
    unfold onMessage
    rw [if_neg (by simp [hk]), if_neg (by simp [hs])]
    have ht : truthy (Val.str i) = true := by
      simp [truthy, hi]
    have hkey : jsToString (Val.str i) = i := rfl
    rw [show (⟨resv, okv, Val.str i⟩ : InMsg)._id = Val.str i from rfl]
    rw [ht, hkey, hl]
    dsimp only
    rw [hfwd]
  · intro m v hm
    obtain ⟨h1, h2, h3, _⟩ := honly m v (Or.inl hm)
    exact ⟨h1, h2, h3 hm⟩
  · intro m v hm
    obtain ⟨h1, h2, _, h4⟩ := honly m v (Or.inr hm)
    exact ⟨h1, h2, h4 hm⟩

/-- A concrete instance with one ready-sent pending request under id "1". -/
def stC2 : PW :=
  { initPW (fun _ => true) (fun _ => Val.undef) with
      idx := 1, queue := [("1", ⟨Val.str "q", 0, 5, none⟩)], pidc := 6,
      ready := true, worker := true }

/-- Witness for C2 at the concrete instance stC2. -/
theorem c2_witness :
    onMessage stC2 ⟨Val.str "r", Val.num 1, Val.str "1"⟩ =
      ({ stC2 with queue := [] }, [Ev.resolve 5 (Val.str "r")]) ∧
    lookupKey (eraseKey stC2.queue "1") "1" = none := by
  have h := c2_reply_correlation stC2 "1" ⟨Val.str "q", 0, 5, none⟩
    rfl
    (by
      rw [show stC2.queue = [("1", ⟨Val.str "q", 0, 5, none⟩)] from rfl]
      simp)
    rfl rfl (by decide)
    (by
      intro j q hq hne
      rw [show stC2.queue = [("1", ⟨Val.str "q", 0, 5, none⟩)] from rfl] at hq
      rw [lookupKey] at hq
      split at hq
      · rename_i heq
        exact absurd heq.symm hne
      · rw [lookupKey] at hq
        cases hq)
    (by intro c hc; cases hc)
    (by decide)
  refine ⟨?_, h.2.1⟩
  have h2 := h.1 (Val.str "r") (Val.num 1) rfl
  rw [h2]
  rfl

/- ## C3: serial FIFO replay of the command cache -/

/-- Feeding the host one worker reply per in-flight request: each reply is an
inbound message ⟨res, ok, _id⟩ addressed to the single currently pending
entry of the queue (serial replay keeps at most one request in flight). -/
def serveReplies : PW → List (Int × Val) → PW × List Ev
  | st, [] => (st, [])
  | st, o :: rest =>
    match st.queue with
    | [] => (st, [])
    | (i, _) :: _ =>
      let r := onMessage st ⟨o.2, Val.num o.1, Val.str i⟩
      let r2 := serveReplies r.1 rest
      (r2.1, r.2 ++ r2.2)

/-- A full replay run: the ready sentinel arrives, then the worker answers
each dispatched request in turn with the given (ok, res) outcomes. -/
def replayRun (st : PW) (outs : List (Int × Val)) : PW × List Ev :=
  let r := onMessage st ⟨Val.str "ready by PromiseWorker.after", Val.undef, Val.undef⟩
  let r2 := serveReplies r.1 outs
  (r2.1, r.2 ++ r2.2)

/-- The settlement a reply with the given ok produces on promise pid. -/
def settleEv (pid : Nat) (ok : Int) (res : Val) : Ev :=
  if okIsOne (Val.num ok) = true then Ev.resolve pid res else Ev.reject pid res

/-- Expected trace of the reply-service phase: each reply settles the
in-flight dispatch promise, then its original caller with the same outcome,
and then — while commands remain — the next command is dispatched.  The
arguments track the in-flight promise, its caller, and the idx/pidc counters. -/
def serveTrace : Nat → Nat → Nat → Nat → List CmdEntry → List (Int × Val) → List Ev
  | _, _, _, _, _, [] => []
  | pid0, cpid, _, _, [], o :: _ =>
    [settleEv pid0 o.1 o.2, settleEv cpid o.1 o.2]
  | pid0, cpid, idx, pidc, c :: cs, o :: rest =>
    settleEv pid0 o.1 o.2 :: settleEv cpid o.1 o.2 ::
    Ev.send (envelope (toBase36 (idx + 1)) (reqObj c.ty c.data)) ::
    serveTrace pidc c.pid (idx + 1) (pidc + 1) cs rest

/-- Expected trace of a whole replay run over the initial cache. -/
def replayTrace (idx pidc : Nat) : List CmdEntry → List (Int × Val) → List Ev
  | [], _ => [Ev.resolveInit]
  | c :: cs, outs =>
    Ev.send (envelope (toBase36 (idx + 1)) (reqObj c.ty c.data)) :: Ev.resolveInit ::
    serveTrace pidc c.pid (idx + 1) (pidc + 1) cs outs

theorem postMsgF_success (st : PW) (req : Val) (fwd : Option Nat)
    (h : (st.worker && st.sendPlan st.sends) = true) :
    postMsgF st req fwd =
      ({ st with
          pidc := st.pidc + 1, idx := st.idx + 1, sends := st.sends + 1,
          queue := insertKey st.queue (toBase36 (st.idx + 1)) ⟨req, st.clock, st.pidc, fwd⟩,
          clock := st.clock + 1 },
        [Ev.send (envelope (toBase36 (st.idx + 1)) req)]) := by
  unfold postMsgF
  dsimp only
  rw [if_pos h]

/-- One reply arriving for the single pending entry, which forwards to a
replayed caller: both settle and the drain continues. -/
theorem onMessage_reply_fwd (st : PW) (i : String) (p : Pending) (c : Nat)
    (resv okv : Val)
    (hk : st.killed = 0) (hs : isReadySentinel resv = false)
    (hl : lookupKey st.queue i = some p) (hfwd : p.fwd = some c) (hi : i ≠ "") :
    onMessage st ⟨resv, okv, Val.str i⟩ =
      ((runCmdAux st.cmdCache { st with queue := eraseKey st.queue i }).1,
        (if okIsOne okv = true then Ev.resolve p.pid resv else Ev.reject p.pid resv) ::
        (if okIsOne okv = true then Ev.resolve c resv else Ev.reject c resv) ::
        (runCmdAux st.cmdCache { st with queue := eraseKey st.queue i }).2) := by
  unfold onMessage
  rw [if_neg (by simp [hk]), if_neg (by simp [hs])]
  have ht : truthy (Val.str i) = true := by simp [truthy, hi]
  rw [show (⟨resv, okv, Val.str i⟩ : InMsg)._id = Val.str i from rfl]
  rw [ht, show jsToString (Val.str i) = i from rfl, hl]
  dsimp only
  rw [hfwd]
  rfl

theorem serveReplies_spec :
    ∀ (outs : List (Int × Val)) (st : PW) (i : String) (p : Pending) (cpid : Nat),
      st.killed = 0 → st.worker = true → st.ready = true →
      st.sendPlan = (fun _ => true) →
      st.queue = [(i, p)] → p.fwd = some cpid →
      outs.length = st.cmdCache.length + 1 →
      (∀ o ∈ outs, isReadySentinel o.2 = false) →
      i ≠ "" →
      (serveReplies st outs).2 = serveTrace p.pid cpid st.idx st.pidc st.cmdCache outs ∧
      (serveReplies st outs).1.queue = [] ∧ (serveReplies st outs).1.cmdCache = [] := by
  intro outs
  induction outs with
  | nil =>
    intro st i p cpid _ _ _ _ _ _ hlen _ _
    simp at hlen
  | cons o rest ih =>
    intro st i p cpid hk hw hr hsp hq hfwd hlen hsent hi
    have herase : eraseKey st.queue i = [] := by
      rw [hq, eraseKey, if_pos rfl]
    have hlkp : lookupKey st.queue i = some p := by
      rw [hq, lookupKey, if_pos rfl]
    have hstep := onMessage_reply_fwd st i p cpid o.2 (Val.num o.1) hk
      (hsent o (List.mem_cons_self o rest)) hlkp hfwd hi
    rw [herase] at hstep
    rw [serveReplies, hq]
    dsimp only
    cases hcc : st.cmdCache with
    | nil =>
      rw [hcc] at hstep
      have hrest : rest = [] := by
        rw [hcc] at hlen
        simpa using hlen
      subst hrest
      rw [hstep]
      rw [serveReplies]
      rw [serveTrace]
      exact ⟨by rw [List.append_nil]; rfl, rfl, rfl⟩
    | cons c cs =>
      rw [hcc] at hstep
      have hdisp : runCmdAux (c :: cs)
          ({ st with queue := [], cmdCache := c :: cs } : PW) =
          ({ st with
              cmdCache := cs, pidc := st.pidc + 1, idx := st.idx + 1,
              sends := st.sends + 1,
              queue := [(toBase36 (st.idx + 1),
                ⟨reqObj c.ty c.data, st.clock, st.pidc, some c.pid⟩)],
              clock := st.clock + 1 },
            [Ev.send (envelope (toBase36 (st.idx + 1)) (reqObj c.ty c.data))]) := by
        rw [runCmdAux]
        dsimp only
        rw [if_pos (show ({ st with
          queue := ([] : List (String × Pending)),
          cmdCache := cs } : PW).ready = true from hr)]
        rw [if_pos (show (({ st with
            queue := ([] : List (String × Pending)), cmdCache := cs } : PW).worker &&
            ({ st with
              queue := ([] : List (String × Pending)), cmdCache := cs } : PW).sendPlan
              ({ st with
                queue := ([] : List (String × Pending)),
                cmdCache := cs } : PW).sends) = true by
          dsimp only
          rw [hw, hsp]
          rfl)]
        rw [postMsgF_success _ _ _ (by
          dsimp only
          rw [hw, hsp]
          rfl)]
        rfl
      rw [hdisp] at hstep
      have hord := ih ({ st with
          cmdCache := cs, pidc := st.pidc + 1, idx := st.idx + 1,
          sends := st.sends + 1,
          queue := [(toBase36 (st.idx + 1),
            ⟨reqObj c.ty c.data, st.clock, st.pidc, some c.pid⟩)],
          clock := st.clock + 1 } : PW)
        (toBase36 (st.idx + 1)) ⟨reqObj c.ty c.data, st.clock, st.pidc, some c.pid⟩ c.pid
        hk hw hr hsp rfl rfl
        (by
          dsimp only
          rw [hcc] at hlen
          simp at hlen
          omega)
        (fun o2 ho2 => hsent o2 (List.mem_cons_of_mem _ ho2))
        (toBase36_ne_empty _)
      rw [hstep]
      rw [serveTrace]
      obtain ⟨ht1, ht2, ht3⟩ := hord
      refine ⟨?_, ht2, ht3⟩
      rw [ht1]
      rfl

theorem runCmdAux_dispatch_one (c : CmdEntry) (cs : List CmdEntry) (st : PW)
    (hr : st.ready = true) (hw : st.worker = true)
    (hsp : st.sendPlan = (fun _ => true)) :
    runCmdAux (c :: cs) st =
      ({ st with
          cmdCache := cs, pidc := st.pidc + 1, idx := st.idx + 1, sends := st.sends + 1,
          queue := insertKey st.queue (toBase36 (st.idx + 1))
            ⟨reqObj c.ty c.data, st.clock, st.pidc, some c.pid⟩,
          clock := st.clock + 1 },
        [Ev.send (envelope (toBase36 (st.idx + 1)) (reqObj c.ty c.data))]) := by
  rw [runCmdAux]
  dsimp only
  rw [if_pos (show ({ st with cmdCache := cs } : PW).ready = true from hr)]
  rw [if_pos (show (({ st with cmdCache := cs } : PW).worker &&
      ({ st with cmdCache := cs } : PW).sendPlan
        ({ st with cmdCache := cs } : PW).sends) = true by
    dsimp only
    rw [hw, hsp]
    rfl)]
  rw [postMsgF_success _ _ _ (by
    dsimp only
    rw [hw, hsp]
    rfl)]

/-- The sentinel arrives on a not-yet-ready instance with an empty pending
map: the whole replay run produces exactly the expected trace, and drains both
the queue and the cache. -/
theorem replayRun_spec (st : PW) (outs : List (Int × Val))
    (hk : st.killed = 0) (hw : st.worker = true)
    (hsp : st.sendPlan = (fun _ => true))
    (hq : st.queue = []) (hlen : outs.length = st.cmdCache.length)
    (hsent : ∀ o ∈ outs, isReadySentinel o.2 = false) :
    (replayRun st outs).2 = replayTrace st.idx st.pidc st.cmdCache outs ∧
    (replayRun st outs).1.queue = [] ∧ (replayRun st outs).1.cmdCache = [] := by
  have hsm : onMessage st ⟨Val.str "ready by PromiseWorker.after", Val.undef, Val.undef⟩ =
      ((runCmdAux st.cmdCache { st with ready := true }).1,
        (runCmdAux st.cmdCache { st with ready := true }).2 ++ [Ev.resolveInit]) := by
    unfold onMessage
    rw [if_neg (by simp [hk])]
    rw [if_pos (show isReadySentinel (⟨Val.str "ready by PromiseWorker.after",
      Val.undef, Val.undef⟩ : InMsg).res = true from rfl)]
    rfl
  unfold replayRun
  dsimp only
  rw [hsm]
  cases hcc : st.cmdCache with
  | nil =>
    have houts : outs = [] := by
      rw [hcc] at hlen
      simpa using hlen
    subst houts
    exact ⟨rfl, hq, rfl⟩
  | cons c cs =>
    have hdisp : runCmdAux (c :: cs) ({ st with ready := true, cmdCache := c :: cs } : PW) =
        ({ st with
            ready := true, cmdCache := cs, pidc := st.pidc + 1, idx := st.idx + 1,
            sends := st.sends + 1,
            queue := insertKey st.queue (toBase36 (st.idx + 1))
              ⟨reqObj c.ty c.data, st.clock, st.pidc, some c.pid⟩,
            clock := st.clock + 1 },
          [Ev.send (envelope (toBase36 (st.idx + 1)) (reqObj c.ty c.data))]) :=
      runCmdAux_dispatch_one c cs _ rfl hw hsp
    rw [hq] at hdisp
    rw [hq]
    rw [hdisp]
    have hserve := serveReplies_spec outs
      ({ st with
          ready := true, cmdCache := cs, pidc := st.pidc + 1, idx := st.idx + 1,
          sends := st.sends + 1,
          queue := insertKey [] (toBase36 (st.idx + 1))
            ⟨reqObj c.ty c.data, st.clock, st.pidc, some c.pid⟩,
          clock := st.clock + 1 } : PW)
      (toBase36 (st.idx + 1)) ⟨reqObj c.ty c.data, st.clock, st.pidc, some c.pid⟩ c.pid
      hk hw rfl hsp rfl rfl
      (by
        dsimp only
        rw [hcc] at hlen
        simp at hlen
        omega)
      hsent (toBase36_ne_empty _)
    obtain ⟨hs1, hs2, hs3⟩ := hserve
    refine ⟨?_, hs2, hs3⟩
    rw [hs1]
    rfl

/-- The channel-write payloads of a trace, in order, projected to their req
component. -/
def sendReqs (tr : List Ev) : List Val :=
  tr.filterMap (fun e => match e with
    | Ev.send v => some (getField v "req")
    | _ => none)

theorem sendReqs_settle (pid : Nat) (ok : Int) (res : Val) (tr : List Ev) :
    sendReqs (settleEv pid ok res :: tr) = sendReqs tr := by
  unfold settleEv sendReqs
  split <;> rw [List.filterMap_cons]

theorem getField_envelope (i : String) (req : Val) :
    getField (envelope i req) "req" = req := by
  rfl

theorem serveTrace_sendReqs :
    ∀ (cs : List CmdEntry) (outs : List (Int × Val)) (pid0 cpid idx pidc : Nat),
      outs.length = cs.length + 1 →
      sendReqs (serveTrace pid0 cpid idx pidc cs outs) =
        cs.map (fun c => reqObj c.ty c.data) := by
  intro cs
  induction cs with
  | nil =>
    intro outs pid0 cpid idx pidc hlen
    cases outs with
    | nil => simp at hlen
    | cons o rest =>
      rw [serveTrace]
      rw [sendReqs_settle, sendReqs_settle]
      rfl
  | cons c cs ih =>
    intro outs pid0 cpid idx pidc hlen
    cases outs with
    | nil => simp at hlen
    | cons o rest =>
      rw [serveTrace]
      rw [sendReqs_settle, sendReqs_settle]
      rw [show sendReqs (Ev.send (envelope (toBase36 (idx + 1)) (reqObj c.ty c.data)) ::
          serveTrace pidc c.pid (idx + 1) (pidc + 1) cs rest) =
        getField (envelope (toBase36 (idx + 1)) (reqObj c.ty c.data)) "req" ::
          sendReqs (serveTrace pidc c.pid (idx + 1) (pidc + 1) cs rest) from rfl]
      rw [getField_envelope]
      rw [ih rest pidc c.pid (idx + 1) (pidc + 1) (by simpa using hlen)]
      rfl

theorem replayTrace_sendReqs :
    ∀ (cs : List CmdEntry) (outs : List (Int × Val)) (idx pidc : Nat),
      outs.length = cs.length →
      sendReqs (replayTrace idx pidc cs outs) = cs.map (fun c => reqObj c.ty c.data) := by
  intro cs outs idx pidc hlen
  cases cs with
  | nil => rfl
  | cons c cs =>
    rw [replayTrace]
    rw [show sendReqs (Ev.send (envelope (toBase36 (idx + 1)) (reqObj c.ty c.data)) ::
        Ev.resolveInit :: serveTrace pidc c.pid (idx + 1) (pidc + 1) cs outs) =
      getField (envelope (toBase36 (idx + 1)) (reqObj c.ty c.data)) "req" ::
        sendReqs (serveTrace pidc c.pid (idx + 1) (pidc + 1) cs outs) from rfl]
    rw [getField_envelope]
    rw [serveTrace_sendReqs cs outs pidc c.pid (idx + 1) (pidc + 1) (by simpa using hlen)]
    rfl

theorem serveTrace_caller_settles :
    ∀ (cs : List CmdEntry) (outs : List (Int × Val)) (pid0 cpid idx pidc : Nat),
      outs.length = cs.length + 1 →
      ∀ pr ∈ (cpid :: cs.map CmdEntry.pid).zip outs,
        settleEv pr.1 pr.2.1 pr.2.2 ∈ serveTrace pid0 cpid idx pidc cs outs := by
  intro cs
  induction cs with
  | nil =>
    intro outs pid0 cpid idx pidc hlen pr hpr
    cases outs with
    | nil => simp at hlen
    | cons o rest =>
      rw [List.map_nil, List.zip_cons_cons] at hpr
      rcases List.mem_cons.mp hpr with h | h
      · subst h
        rw [serveTrace]
        exact List.mem_cons_of_mem _ (List.mem_singleton.mpr rfl)
      · rw [List.zip_nil_left] at h
        cases h
  | cons c cs ih =>
    intro outs pid0 cpid idx pidc hlen pr hpr
    cases outs with
    | nil => simp at hlen
    | cons o rest =>
      rw [List.map_cons, List.zip_cons_cons] at hpr
      rw [serveTrace]
      rcases List.mem_cons.mp hpr with h | h
      · subst h
        exact List.mem_cons_of_mem _ (List.mem_cons_self _ _)
      · have := ih rest pidc c.pid (idx + 1) (pidc + 1) (by simpa using hlen) pr h
        exact List.mem_cons_of_mem _ (List.mem_cons_of_mem _ (List.mem_cons_of_mem _ this))

theorem replayTrace_caller_settles :
    ∀ (cs : List CmdEntry) (outs : List (Int × Val)) (idx pidc : Nat),
      outs.length = cs.length →
      ∀ pr ∈ (cs.map CmdEntry.pid).zip outs,
        settleEv pr.1 pr.2.1 pr.2.2 ∈ replayTrace idx pidc cs outs := by
  intro cs outs idx pidc hlen pr hpr
  cases cs with
  | nil =>
    rw [List.map_nil, List.zip_nil_left] at hpr
    cases hpr
  | cons c cs =>
    rw [replayTrace]
    have := serveTrace_caller_settles cs outs pidc c.pid (idx + 1) (pidc + 1)
      (by simpa using hlen) pr (by rwa [List.map_cons] at hpr)
    exact List.mem_cons_of_mem _ (List.mem_cons_of_mem _ this)

theorem serveTrace_seq :
    ∀ (cs : List CmdEntry) (outs : List (Int × Val)) (pid0 cpid idx pidc : Nat),
      outs.length = cs.length + 1 →
      (∀ o c2, outs.get? 0 = some o → cs.get? 0 = some c2 →
        ∃ pre post, serveTrace pid0 cpid idx pidc cs outs =
          pre ++ settleEv cpid o.1 o.2 ::
            Ev.send (envelope (toBase36 (idx + 1)) (reqObj c2.ty c2.data)) :: post) ∧
      (∀ j o c1 c2, outs.get? (j + 1) = some o → cs.get? j = some c1 →
        cs.get? (j + 1) = some c2 →
        ∃ pre post, serveTrace pid0 cpid idx pidc cs outs =
          pre ++ settleEv c1.pid o.1 o.2 ::
            Ev.send (envelope (toBase36 (idx + j + 2)) (reqObj c2.ty c2.data)) :: post) := by
  intro cs
  induction cs with
  | nil =>
    intro outs pid0 cpid idx pidc hlen
    constructor
    · intro o c2 ho hc
      simp at hc
    · intro j o c1 c2 ho hc1 hc2
      simp at hc1
  | cons c cs ih =>
    intro outs pid0 cpid idx pidc hlen
    cases outs with
    | nil => simp at hlen
    | cons o0 rest =>
      have ihr := ih rest pidc c.pid (idx + 1) (pidc + 1) (by simpa using hlen)
      constructor
      · intro o c2 ho hc
        have ho0 : o = o0 := by
          rw [List.get?_cons_zero] at ho
          exact (Option.some.injEq _ _ ▸ ho).symm
        have hc0 : c2 = c := by
          rw [List.get?_cons_zero] at hc
          exact (Option.some.injEq _ _ ▸ hc).symm
        subst ho0
        subst hc0
        refine ⟨[settleEv pid0 o.1 o.2], serveTrace pidc c2.pid (idx + 1) (pidc + 1) cs rest,
          ?_⟩
        rw [serveTrace]
        rfl
      · intro j o c1 c2 ho hc1 hc2
        cases j with
        | zero =>
          have hc1e : c1 = c := by
            rw [List.get?_cons_zero] at hc1
            exact (Option.some.injEq _ _ ▸ hc1).symm
          subst hc1e
          obtain ⟨pre, post, hp⟩ := ihr.1 o c2 (by simpa using ho) (by simpa using hc2)
          refine ⟨settleEv pid0 o0.1 o0.2 :: settleEv cpid o0.1 o0.2 ::
            Ev.send (envelope (toBase36 (idx + 1)) (reqObj c1.ty c1.data)) :: pre, post, ?_⟩
          rw [serveTrace, hp]
          rw [show idx + 0 + 2 = idx + 1 + 1 by omega]
          rfl
        | succ j2 =>
          obtain ⟨pre, post, hp⟩ := ihr.2 j2 o c1 c2 (by simpa using ho)
            (by simpa using hc1) (by simpa using hc2)
          refine ⟨settleEv pid0 o0.1 o0.2 :: settleEv cpid o0.1 o0.2 ::
            Ev.send (envelope (toBase36 (idx + 1)) (reqObj c.ty c.data)) :: pre, post, ?_⟩
          rw [serveTrace, hp]
          rw [show idx + (j2 + 1) + 2 = idx + 1 + j2 + 2 by omega]
          rfl

theorem replayTrace_seq :
    ∀ (cs : List CmdEntry) (outs : List (Int × Val)) (idx pidc : Nat),
      outs.length = cs.length →
      ∀ k o c1 c2, outs.get? k = some o → cs.get? k = some c1 →
        cs.get? (k + 1) = some c2 →
      ∃ pre post, replayTrace idx pidc cs outs =
        pre ++ settleEv c1.pid o.1 o.2 ::
          Ev.send (envelope (toBase36 (idx + k + 2)) (reqObj c2.ty c2.data)) :: post := by
  intro cs outs idx pidc hlen k o c1 c2 ho hc1 hc2
  cases cs with
  | nil => simp at hc1
  | cons c cs =>
    cases outs with
    | nil => simp at hlen
    | cons o0 rest =>
      have hserve := serveTrace_seq cs (o0 :: rest) pidc c.pid (idx + 1) (pidc + 1)
        (by simpa using hlen)
      cases k with
      | zero =>
        have hc1e : c1 = c := by
          rw [List.get?_cons_zero] at hc1
          exact (Option.some.injEq _ _ ▸ hc1).symm
        subst hc1e
        have ho0 : o = o0 := by
          rw [List.get?_cons_zero] at ho
          exact (Option.some.injEq _ _ ▸ ho).symm
        subst ho0
        obtain ⟨pre, post, hp⟩ := hserve.1 o c2 (by simp) (by simpa using hc2)
        refine ⟨Ev.send (envelope (toBase36 (idx + 1)) (reqObj c1.ty c1.data)) ::
          Ev.resolveInit :: pre, post, ?_⟩
        rw [replayTrace, hp]
        rw [show idx + 0 + 2 = idx + 1 + 1 by omega]
        rfl
      | succ j =>
        obtain ⟨pre, post, hp⟩ := hserve.2 j o c1 c2 (by simpa using ho)
          (by simpa using hc1) (by simpa using hc2)
        refine ⟨Ev.send (envelope (toBase36 (idx + 1)) (reqObj c.ty c.data)) ::
          Ev.resolveInit :: pre, post, ?_⟩
        rw [replayTrace, hp]
        rw [show idx + (j + 1) + 2 = idx + 1 + j + 2 by omega]
        rfl

/-- C3: on readiness confirmation (the sentinel arriving with an empty pending
map and every channel write accepted), the commands queued before readiness
are replayed exactly as replayTrace describes: (i) the run's event trace
equals replayTrace, whose shape interleaves each dispatch strictly after the
settlement of the previous command; (ii) the channel writes carry the queued
commands' payloads in exactly the order the commands were issued (FIFO);
(iii) each caller's original promise settles with the outcome (ok, res) of
its own replayed call (the k-th cached caller with the k-th reply); and
(iv) for every consecutive pair of commands, the trace decomposes so that the
dispatch of command k+1 appears immediately after the settlement of command
k's caller: command k+1 is not dispatched until command k settles. -/
theorem c3_replay_fifo_sequential (st : PW) (outs : List (Int × Val))
    (hk : st.killed = 0) (hw : st.worker = true)
    (hsp : st.sendPlan = (fun _ => true)) (hq : st.queue = [])
    (hlen : outs.length = st.cmdCache.length)
    (hsent : ∀ o ∈ outs, isReadySentinel o.2 = false) :
    (replayRun st outs).2 = replayTrace st.idx st.pidc st.cmdCache outs ∧
    sendReqs ((replayRun st outs).2) = st.cmdCache.map (fun c => reqObj c.ty c.data) ∧
    (∀ pr ∈ (st.cmdCache.map CmdEntry.pid).zip outs,
      settleEv pr.1 pr.2.1 pr.2.2 ∈ (replayRun st outs).2) ∧
    (∀ k o c1 c2, outs.get? k = some o → st.cmdCache.get? k = some c1 →
      st.cmdCache.get? (k + 1) = some c2 →
      ∃ pre post, (replayRun st outs).2 =
        pre ++ settleEv c1.pid o.1 o.2 ::
          Ev.send (envelope (toBase36 (st.idx + k + 2)) (reqObj c2.ty c2.data)) :: post) := by
  obtain ⟨h1, _, _⟩ := replayRun_spec st outs hk hw hsp hq hlen hsent
  refine ⟨h1, ?_, ?_, ?_⟩
  · rw [h1]
    exact replayTrace_sendReqs _ _ _ _ hlen
  · intro pr hpr
    rw [h1]
    exact replayTrace_caller_settles _ _ _ _ hlen pr hpr
  · intro k o c1 c2 ho hc1 hc2
    rw [h1]
    exact replayTrace_seq _ _ _ _ hlen k o c1 c2 ho hc1 hc2

/-- An instance with a worker attached on which two commands were queued
before readiness. -/
def stC3 : PW :=
  (stepsF (initPW (fun _ => true) (fun _ => Val.undef))
    [Act.attach, Act.emit (Val.str "a") Val.undef, Act.emit (Val.str "b") Val.undef]).1

/-- Witness for C3: a concrete two-command replay, first reply resolving and
second rejecting. -/
theorem c3_witness :
    (replayRun stC3 [(1, Val.str "r1"), (0, Val.str "r2")]).2 =
      replayTrace stC3.idx stC3.pidc stC3.cmdCache [(1, Val.str "r1"), (0, Val.str "r2")] ∧
    sendReqs ((replayRun stC3 [(1, Val.str "r1"), (0, Val.str "r2")]).2) =
      stC3.cmdCache.map (fun c => reqObj c.ty c.data) ∧
    settleEv 0 1 (Val.str "r1") ∈ (replayRun stC3 [(1, Val.str "r1"), (0, Val.str "r2")]).2 := by
  have h := c3_replay_fifo_sequential stC3 [(1, Val.str "r1"), (0, Val.str "r2")]
    rfl rfl rfl rfl rfl
    (by
      intro o ho
      simp at ho
      rcases ho with h | h
      · subst h
        rfl
      · subst h
        rfl)
  refine ⟨h.1, h.2.1, ?_⟩
  exact h.2.2.1 (0, (1, Val.str "r1"))
    (List.mem_cons_self (0, (1, Val.str "r1")) [(1, (0, Val.str "r2"))])
